import Mathlib

/-!
Verification development for the embedded-cli library
(src/lib/src/embedded_cli.c).  The C code is shallowly embedded: byte
buffers become lists of characters, in-place mutation becomes explicit
state passing, and every C function the claims touch is translated to an
executable Lean definition carrying the same name.
-/

set_option linter.unusedVariables false

namespace EmbeddedCli

/-- The NUL character, i.e. the C string terminator byte 0. -/
def chNul : Char := Char.ofNat 0

/-- The ESC byte 0x1B. -/
def chEsc : Char := Char.ofNat 27

/-- The backspace byte 0x08. -/
def chBs : Char := Char.ofNat 8

/-- The DEL byte 0x7F. -/
def chDel : Char := Char.ofNat 127

/-- isControlChar from embedded_cli.c: CR, LF, backspace, TAB or DEL. -/
def isControlChar (c : Char) : Prop :=
  c = '\r' ∨ c = '\n' ∨ c = chBs ∨ c = '\t' ∨ c = chDel

instance (c : Char) : Decidable (isControlChar c) := by
  unfold isControlChar; infer_instance

/-- isDisplayableChar from embedded_cli.c: printable ASCII 0x20..0x7E. -/
def isDisplayableChar (c : Char) : Prop :=
  32 ≤ c.toNat ∧ c.toNat ≤ 126

instance (c : Char) : Decidable (isDisplayableChar c) := by
  unfold isDisplayableChar; infer_instance

/-- The line break string "\r\n" written on line submission. -/
def lineBreak : List Char := ['\r', '\n']

/-- Reading a C string starting at index i of a buffer: the characters up
to (excluding) the first NUL.  Models taking a `char *` pointer into the
buffer and reading it as a null-terminated string. -/
def readCStr (b : List Char) (i : Nat) : List Char :=
  (b.drop i).takeWhile (fun c => c ≠ chNul)

/-- Write the characters of src into buffer b starting at offset i
(writes beyond the end of b are dropped, mirroring that the C code only
performs such writes inside the allocated buffer).  Models memcpy from
separate storage. -/
def writeAt (b : List Char) (i : Nat) (src : List Char) : List Char :=
  match src with
  | [] => b
  | c :: rest => writeAt (b.set i c) (i + 1) rest

/-- memmove inside one buffer: copy n bytes from offset src to offset
dst, with the reads taken from the original contents (memmove semantics:
as if through a temporary buffer). -/
def memmoveAux (orig : List Char) (dst src : Nat) : Nat → List Char → List Char
  | 0, acc => acc
  | k + 1, acc => memmoveAux orig dst src k (acc.set (dst + k) (orig.getD (src + k) chNul))

/-- memmove(b + dst, b + src, n) on the buffer b. -/
def memmoveL (b : List Char) (dst src n : Nat) : List Char :=
  memmoveAux b dst src n b

/-! ### Ring buffer (FifoBuf) -/

/-- struct FifoBuf: a ring buffer of characters.  The C stores a pointer
and a size; here buf is the backing storage of length size. -/
structure FifoBuf where
  buf : List Char
  front : Nat
  back : Nat
  size : Nat
  deriving Repr, DecidableEq

/-- Well-formedness of the ring buffer as established by construction:
indices are in range and the backing array has the declared size. -/
def FifoWF (b : FifoBuf) : Prop :=
  b.buf.length = b.size ∧ b.front < b.size ∧ b.back < b.size

/-- fifoBufAvailable: occupied count. -/
def fifoBufAvailable (b : FifoBuf) : Nat :=
  if b.front ≤ b.back then b.back - b.front else b.size - b.front + b.back

/-- fifoBufPop: return the front character and advance front; returns 0
and leaves the buffer untouched when empty. -/
def fifoBufPop (b : FifoBuf) : Char × FifoBuf :=
  if b.front ≠ b.back then
    (b.buf.getD b.front chNul, { b with front := (b.front + 1) % b.size })
  else
    (chNul, b)

/-- fifoBufPush: insert at back unless the advance would collide with
front (one slot is always kept empty); returns false and leaves the
buffer unchanged when full. -/
def fifoBufPush (b : FifoBuf) (a : Char) : FifoBuf × Bool :=
  let newBack := (b.back + 1) % b.size
  if newBack ≠ b.front then
    ({ b with buf := b.buf.set b.back a, back := newBack }, true)
  else
    (b, false)

/-- Abstraction function: the queue of characters currently held in the
ring buffer, oldest first. -/
def fifoToList (b : FifoBuf) : List Char :=
  (List.range (fifoBufAvailable b)).map (fun k => b.buf.getD ((b.front + k) % b.size) chNul)

/-! ### Tokenizer (embeddedCliTokenizeArgs) -/

/-- Membership in the separator set of the tokenizer.  The C code tests
strchr(" ", c) != NULL, and strchr also matches the terminating NUL of
the separator string, so both ' ' and the NUL byte count as hits. -/
def isSepMatch (c : Char) : Prop := c = ' ' ∨ c = chNul

instance (c : Char) : Decidable (isSepMatch c) := by
  unfold isSepMatch; infer_instance

/-- First tokenizer pass: for i in [0, len), replace separator bytes by
NUL.  i is the next index to process, n the remaining count. -/
def tokSubstLoop : Nat → Nat → List Char → List Char
  | 0, _, b => b
  | n + 1, i, b =>
      tokSubstLoop n (i + 1) (if isSepMatch (b.getD i chNul) then b.set i chNul else b)

/-- Second tokenizer pass, scanning right to left from index len-1 down
to 0 compressing runs of NULs.  The fuel argument is i+1 where i is the
next index to process; nxt is nextTokenStartIndex.  The C compares
`nextTokenStartIndex - i > 2` on size_t, which wraps if nxt < i, hence
the disjunct. -/
def tokMoveLoop (len : Nat) : Nat → List Char → Nat → List Char × Nat
  | 0, b, nxt => (b, nxt)
  | i + 1, b, nxt =>
      if ¬ isSepMatch (b.getD i chNul) ∧ b.getD (i + 1) chNul = chNul then
        if nxt ≠ 0 ∧ (2 < nxt - i ∨ nxt < i) then
          tokMoveLoop len i (memmoveL b (i + 2) nxt (len - nxt + 1)) nxt
        else tokMoveLoop len i b nxt
      else if isSepMatch (b.getD i chNul) ∧ b.getD (i + 1) chNul ≠ chNul then
        tokMoveLoop len i b (i + 1)
      else tokMoveLoop len i b nxt

/-- embeddedCliTokenizeArgs: in-place tokenization of the C string s
(length = s.length, no interior NULs for genuine C strings).  The
modelled buffer is the string plus its terminator plus the one spare
byte the caller must reserve; the function first writes the extra NUL at
len+1, then runs the three passes.  Returns the whole buffer (length
s.length + 2). -/
def embeddedCliTokenizeArgs (s : List Char) : List Char :=
  let len := s.length
  let b0 := (s ++ [chNul, chNul]).set (len + 1) chNul
  if len = 0 then b0
  else
    let b1 := tokSubstLoop len 0 b0
    let r := tokMoveLoop len len b1 0
    if r.1.getD 0 chNul = chNul ∧ 0 < r.2 then
      memmoveL r.1 0 r.2 (len - r.2 + 1)
    else r.1

/-! ### Token accessors -/

/-- The scanning loop of embeddedCliGetToken: walk the buffer suffix l
(starting at absolute index i, current token number tc) until tokenCount
reaches pos or the double NUL is hit; returns the stopping index. -/
def gtLoop (pos : Nat) : List Char → Nat → Nat → Nat
  | l, i, tc =>
    if tc = pos then i
    else
      match l with
      | [] => i
      | c :: rest =>
          if c = chNul then
            if rest.getD 0 chNul = chNul then i
            else gtLoop pos rest (i + 1) (tc + 1)
          else gtLoop pos rest (i + 1) tc

/-- embeddedCliGetToken, returning the index of the pos-th (1-based)
token in the tokenized buffer, or none. -/
def getTokenIdx (s : List Char) (pos : Nat) : Option Nat :=
  if pos = 0 then none
  else
    let i := gtLoop pos s 0 1
    if s.getD i chNul ≠ chNul then some i else none

/-- embeddedCliGetToken: the pos-th (1-based) token of a tokenized
buffer as a string, or none when pos = 0 or out of range. -/
def embeddedCliGetToken (s : List Char) (pos : Nat) : Option (List Char) :=
  (getTokenIdx s pos).map (readCStr s)

/-- The counting loop of embeddedCliGetTokenCount. -/
def gtcLoop : List Char → Nat → Nat
  | [], tc => tc
  | c :: rest, tc =>
      if c = chNul then
        if rest.getD 0 chNul = chNul then tc else gtcLoop rest (tc + 1)
      else gtcLoop rest tc

/-- embeddedCliGetTokenCount: number of tokens in a tokenized buffer. -/
def embeddedCliGetTokenCount (s : List Char) : Nat :=
  if s.getD 0 chNul = chNul then 0 else gtcLoop s 1

/-- The tokens the tokenizer is specified to produce for an input:
maximal runs of non-separator bytes.  This definition follows the
spec's words (splitting on the separator and dropping empty pieces) and
is compared against the implementation's output. -/
def tokensSpec (s : List Char) : List (List Char) :=
  (s.splitOn ' ').filter (fun t => t ≠ [])

/-! ### History store -/

/-- struct CliHistory. -/
structure CliHistory where
  buf : List Char
  bufferSize : Nat
  itemsCount : Nat
  deriving Repr, DecidableEq

/-- historyGet: 1-based retrieval; none for item 0 or beyond the count.
The C returns a pointer obtained through embeddedCliGetToken. -/
def historyGet (h : CliHistory) (item : Nat) : Option (List Char) :=
  if item = 0 ∨ h.itemsCount < item then none
  else embeddedCliGetToken h.buf item

/-- Index variant of historyGet, used by historyPut for its pointer
arithmetic (item - history->buf). -/
def historyGetIdx (h : CliHistory) (item : Nat) : Option Nat :=
  if item = 0 ∨ h.itemsCount < item then none
  else getTokenIdx h.buf item

/-- The eviction loop of historyPut.  Looks up the oldest item; if the
lookup yields NULL the C passes it to strlen, which is undefined
behaviour, modelled as none.  Otherwise computes the used size and
either exits (enough free space) or drops the oldest item.  Returns
(usedSize, new itemsCount) on normal exit. -/
def historyEvictLoop (buf : List Char) (bufferSize len : Nat) :
    Nat → Nat → Option (Nat × Nat)
  | 0, _ => none
  | fuel + 1, cnt =>
      match historyGetIdx ⟨buf, bufferSize, cnt⟩ cnt with
      | none => none
      | some idx =>
          let itemLen := (readCStr buf idx).length
          let usedSize := idx + itemLen + 1
          let freeSpace := bufferSize - usedSize
          if len + 1 ≤ freeSpace then some (usedSize, cnt)
          else historyEvictLoop buf bufferSize len fuel (cnt - 1)

/-- historyPut: insert str at the front of the history, evicting oldest
items as needed.  Returns none when the C code would run into undefined
behaviour (strlen of a NULL item pointer); otherwise the updated history
and the boolean result. -/
def historyPut (h : CliHistory) (str : List Char) : Option (CliHistory × Bool) :=
  let len := str.length
  if h.bufferSize < len + 1 then some (h, false)
  else
    match historyEvictLoop h.buf h.bufferSize len (h.itemsCount + 1) h.itemsCount with
    | none => none
    | some r =>
        let b1 := if 0 < r.2 then memmoveL h.buf (len + 1) 0 r.1 else h.buf
        let b2 := writeAt b1 0 (str ++ [chNul])
        some ({ buf := b2, bufferSize := h.bufferSize, itemsCount := r.2 }, true)

end EmbeddedCli

namespace EmbeddedCli

/-! ### Engine state

The EmbeddedCli/EmbeddedCliImpl pair is split in two: CliCore holds every
field the byte-processing side reads or writes, CliState adds the receive
ring buffer (the only field the ingestion side shares with it).  Output
is modelled as the sequence of bytes handed to the writeChar callback;
dispatched records each command dispatch as an observable event. -/

/-- A command handler pointer: the built-in help handler, or an
application callback (whose effects are outside the engine). -/
inductive CliHandler where
  | helpH
  | extH (id : Nat)
  deriving Repr, DecidableEq

/-- struct CliCommandBinding: name, optional help text, tokenize flag,
opaque context, handler (none models a NULL function pointer). -/
structure CliBinding where
  name : List Char
  help : Option (List Char)
  tokenizeArgs : Bool
  context : Nat
  binding : Option CliHandler
  deriving Repr, DecidableEq

/-- Observable dispatch events. -/
inductive CbEvent where
  | invoke (idx : Nat) (name : List Char) (args : Option (List Char))
  | defaultCmd (name : List Char) (args : Option (List Char))
  | unknownCmd (name : List Char)
  deriving Repr, DecidableEq

/-- The processing-side state (everything in EmbeddedCliImpl except the
receive buffer, plus the EmbeddedCli callbacks and the observables). -/
structure CliCore where
  cmdBuffer : List Char
  cmdSize : Nat
  cmdMaxSize : Nat
  bindings : List CliBinding
  bindingsFlags : List Bool
  maxBindingsCount : Nat
  lastChar : Char
  inputLineLength : Nat
  overflow : Bool
  initComplete : Bool
  escapeMode : Bool
  invitation : List Char
  onCommand : Bool
  hasWriteChar : Bool
  history : CliHistory
  output : List Char
  dispatched : List CbEvent
  deriving Repr, DecidableEq

/-- The full engine state. -/
structure CliState where
  core : CliCore
  rxBuffer : FifoBuf
  deriving Repr, DecidableEq

/-- One call of the writeChar callback. -/
def emitChar (st : CliCore) (c : Char) : CliCore :=
  { st with output := st.output ++ [c] }

/-- writeToOutput: write each character of the string. -/
def writeToOutput (st : CliCore) (s : List Char) : CliCore :=
  s.foldl emitChar st

/-- clearCurrentLine: carriage return, spaces over invitation plus
rendered length, carriage return. -/
def clearCurrentLine (st : CliCore) : CliCore :=
  let len := st.inputLineLength + st.invitation.length
  let st1 := emitChar st '\r'
  let st2 := writeToOutput st1 (List.replicate len ' ')
  let st3 := emitChar st2 '\r'
  { st3 with inputLineLength := 0 }

/-- onEscapedInput: a byte in 0x40..0x7E terminates the sequence. -/
def onEscapedInput (c : Char) (st : CliCore) : CliCore :=
  if 64 ≤ c.toNat ∧ c.toNat ≤ 126 then { st with escapeMode := false } else st

/-- onCharInput: append a displayable character, keeping two trailing
bytes of the command buffer reserved; echo if writeChar is present. -/
def onCharInput (c : Char) (st : CliCore) : CliCore :=
  if st.cmdMaxSize ≤ st.cmdSize + 2 then st
  else
    let st1 := { st with cmdBuffer := st.cmdBuffer.set st.cmdSize c,
                         cmdSize := st.cmdSize + 1 }
    if st1.hasWriteChar then emitChar st1 c else st1

/-! ### Autocompletion -/

/-- struct AutocompletedCommand. -/
structure AutocompletedCommand where
  firstCandidate : Option (List Char)
  autocompletedLen : Nat
  candidateCount : Nat
  deriving Repr, DecidableEq

/-- The inner loop of getAutocompletedCommand comparing the first
candidate with a new one: first divergence index j in [j0, acl), else
acl.  Fuel bounds the iteration count. -/
def acDiverge (first cand : List Char) : Nat → Nat → Nat → Nat
  | 0, _, acl => acl
  | fuel + 1, j, acl =>
      if j < acl then
        if first.getD j chNul ≠ cand.getD j chNul then j
        else acDiverge first cand fuel (j + 1) acl
      else acl

/-- The registry scan of getAutocompletedCommand.  Produces the result
record and the recomputed autocomplete flags (appended in binding
order). -/
def acFold (cmdSize : Nat) (pfx : List Char) :
    List CliBinding → AutocompletedCommand → List Bool → AutocompletedCommand × List Bool
  | [], cmd, fl => (cmd, fl)
  | b :: rest, cmd, fl =>
      let len := b.name.length
      if len < pfx.length ∨ ¬ b.name.take pfx.length = pfx then
        acFold cmdSize pfx rest cmd (fl ++ [false])
      else
        let acl0 := if cmd.candidateCount = 0 ∨ len < cmd.autocompletedLen then len
                    else cmd.autocompletedLen
        let cnt := cmd.candidateCount + 1
        let cmd' :=
          if cnt = 1 then
            { firstCandidate := some b.name, autocompletedLen := acl0, candidateCount := cnt }
          else
            { firstCandidate := cmd.firstCandidate,
              autocompletedLen :=
                acDiverge (cmd.firstCandidate.getD []) b.name acl0 cmdSize acl0,
              candidateCount := cnt }
        acFold cmdSize pfx rest cmd' (fl ++ [true])

/-- getAutocompletedCommand: when there are no bindings or the prefix is
empty, returns the empty result without touching the flags; otherwise
scans the whole registry. -/
def getAutocompletedCommand (bindings : List CliBinding) (flags : List Bool)
    (cmdSize : Nat) (pfx : List Char) : AutocompletedCommand × List Bool :=
  if bindings = [] ∨ pfx.length = 0 then (⟨none, 0, 0⟩, flags)
  else acFold cmdSize pfx bindings ⟨none, 0, 0⟩ []

/-- The characters first[a], first[a+1], ..., first[b-1] as read by the
completion loops. -/
def sliceD (first : List Char) (a b : Nat) : List Char :=
  (List.range (b - a)).map (fun k => first.getD (a + k) chNul)

/-- printLiveAutocompletion. -/
def printLiveAutocompletion (st : CliCore) : CliCore :=
  let buf := st.cmdBuffer.set st.cmdSize chNul
  let r := getAutocompletedCommand st.bindings st.bindingsFlags st.cmdSize (readCStr buf 0)
  let cmd := r.1
  let st1 := { st with cmdBuffer := buf, bindingsFlags := r.2 }
  if cmd.candidateCount = 0 then
    if st1.cmdSize < st1.inputLineLength then
      let st2 := clearCurrentLine st1
      let st3 := writeToOutput st2 st2.invitation
      let st4 := writeToOutput st3 (readCStr st3.cmdBuffer 0)
      { st4 with inputLineLength := st4.cmdSize }
    else { st1 with inputLineLength := st1.cmdSize }
  else
    let first := cmd.firstCandidate.getD []
    let st2 := writeToOutput st1 (sliceD first st1.cmdSize cmd.autocompletedLen)
    let st3 := writeToOutput st2 (List.replicate (st2.inputLineLength - cmd.autocompletedLen) ' ')
    let st4 := { st3 with inputLineLength := cmd.autocompletedLen }
    let st5 := emitChar st4 '\r'
    let st6 := writeToOutput st5 st5.invitation
    writeToOutput st6 (readCStr st6.cmdBuffer 0)

/-- The completion-commit loop of onAutocompleteRequest: echo and store
count characters of first starting at index i. -/
def acWrite (first : List Char) : Nat → Nat → CliCore → CliCore
  | _, 0, st => st
  | i, k + 1, st =>
      let c := first.getD i chNul
      let st1 := emitChar st c
      acWrite first (i + 1) k { st1 with cmdBuffer := st1.cmdBuffer.set i c }

/-- The candidate-listing loop of onAutocompleteRequest: print the name
of every binding whose autocomplete flag is set. -/
def listCandidates : List (CliBinding × Bool) → CliCore → CliCore
  | [], st => st
  | (b, f) :: rest, st =>
      listCandidates rest
        (if f then writeToOutput (writeToOutput st b.name) lineBreak else st)

/-- onAutocompleteRequest. -/
def onAutocompleteRequest (st : CliCore) : CliCore :=
  let buf := st.cmdBuffer.set st.cmdSize chNul
  let r := getAutocompletedCommand st.bindings st.bindingsFlags st.cmdSize (readCStr buf 0)
  let cmd := r.1
  let st1 := { st with cmdBuffer := buf, bindingsFlags := r.2 }
  if cmd.candidateCount = 0 then st1
  else if cmd.candidateCount = 1 then
    let first := cmd.firstCandidate.getD []
    let st2 := acWrite first st1.cmdSize (cmd.autocompletedLen - st1.cmdSize) st1
    let st3 := emitChar st2 ' '
    let st4 := { st3 with cmdBuffer := st3.cmdBuffer.set cmd.autocompletedLen ' ',
                          cmdSize := cmd.autocompletedLen + 1 }
    { st4 with inputLineLength := st4.cmdSize }
  else
    let stB :=
      if cmd.autocompletedLen = st1.cmdSize then
        let st2 := clearCurrentLine st1
        let st3 := listCandidates (st2.bindings.zip st2.bindingsFlags) st2
        let buf2 := st3.cmdBuffer.set st3.cmdSize chNul
        let st4 := writeToOutput { st3 with cmdBuffer := buf2 } st3.invitation
        writeToOutput st4 (readCStr st4.cmdBuffer 0)
      else
        let first := cmd.firstCandidate.getD []
        let st2 := acWrite first st1.cmdSize (cmd.autocompletedLen - st1.cmdSize) st1
        { st2 with cmdSize := cmd.autocompletedLen }
    { stB with inputLineLength := stB.cmdSize }

/-! ### Help, unknown command, dispatch -/

/-- onUnknownCommand: print the notice (also recorded as an observable
event). -/
def onUnknownCommand (st : CliCore) (nm : List Char) : CliCore :=
  let st1 := writeToOutput st ("Unknown command: \"".toList)
  let st2 := writeToOutput st1 nm
  let st3 := writeToOutput st2 ("\". Write \"help\" for a list of available commands".toList)
  let st4 := writeToOutput st3 lineBreak
  { st4 with dispatched := st4.dispatched ++ [CbEvent.unknownCmd nm] }

/-- The zero-argument branch of onHelp: list every binding. -/
def helpListAll : List CliBinding → CliCore → CliCore
  | [], st => st
  | b :: rest, st =>
      let st1 := writeToOutput st (" * ".toList)
      let st2 := writeToOutput st1 b.name
      let st3 := writeToOutput st2 lineBreak
      let st4 :=
        match b.help with
        | some hs => writeToOutput (writeToOutput (emitChar st3 '\t') hs) lineBreak
        | none => st3
      helpListAll rest st4

/-- onHelp, the built-in help handler.  tokens is the (tokenized)
argument buffer the dispatcher passed, none for a NULL pointer. -/
def onHelp (st : CliCore) (tokens : Option (List Char)) : CliCore :=
  if st.bindings = [] then
    writeToOutput (writeToOutput st ("Help is not available".toList)) lineBreak
  else
    let tc := match tokens with
      | none => 0
      | some ts => embeddedCliGetTokenCount ts
    if tc = 0 then helpListAll st.bindings st
    else if tc = 1 then
      let cmdName := (embeddedCliGetToken (tokens.getD []) 1).getD []
      match st.bindings.find? (fun b => b.name = cmdName) with
      | some b =>
          match b.help with
          | some hs =>
              let st1 := writeToOutput st (" * ".toList)
              let st2 := writeToOutput st1 cmdName
              let st3 := writeToOutput st2 lineBreak
              writeToOutput (writeToOutput (emitChar st3 '\t') hs) lineBreak
          | none =>
              writeToOutput (writeToOutput st ("Help is not available".toList)) lineBreak
      | none => onUnknownCommand st cmdName
    else
      writeToOutput
        (writeToOutput st ("Command \"help\" receives one or zero arguments".toList))
        lineBreak

/-- Invoke the handler of binding b (registry slot i): record the
dispatch event, and for the built-in help handler also run its body.
Application callbacks are external collaborators; their effects are not
part of the engine model. -/
def invokeHandler (st : CliCore) (i : Nat) (b : CliBinding) (nm : List Char)
    (args : Option (List Char)) : CliCore :=
  let st1 := { st with dispatched := st.dispatched ++ [CbEvent.invoke i nm args] }
  match b.binding with
  | some CliHandler.helpH => onHelp st1 args
  | _ => st1

/-- Result of the registry scan in parseCommand: a binding to invoke, a
first match with NULL handler (the loop breaks), or no match. -/
inductive FindRes where
  | invokeAt (i : Nat) (b : CliBinding)
  | stopNull
  | noMatch
  deriving Repr, DecidableEq

/-- The registry scan of parseCommand: first match by exact name; a
NULL handler on the first match breaks out of the loop. -/
def findBinding : List CliBinding → List Char → Nat → FindRes
  | [], _, _ => FindRes.noMatch
  | b :: rest, nm, i =>
      if b.name = nm then
        if (b.binding).isSome then FindRes.invokeAt i b else FindRes.stopNull
      else findBinding rest nm (i + 1)

/-- The name/args scanning loop of parseCommand over cmdBuffer indices
[0, cmdSize).  Fuel is the number of remaining indices, i the current
index.  Returns the buffer (separators before the args zeroed) and the
indices where the name and the args start. -/
def parseScanLoop : Nat → Nat → List Char → Option Nat → Option Nat → Bool →
    List Char × Option Nat × Option Nat
  | 0, _, buf, nm, ar, _ => (buf, nm, ar)
  | k + 1, i, buf, nm, ar, fin =>
      let c := buf.getD i chNul
      if c = ' ' then
        parseScanLoop k (i + 1) (if ar = none then buf.set i chNul else buf) nm ar
          (if nm ≠ none then true else fin)
      else if nm = none then parseScanLoop k (i + 1) buf (some i) ar fin
      else if ar = none ∧ fin then parseScanLoop k (i + 1) buf nm (some i) fin
      else parseScanLoop k (i + 1) buf nm ar fin

/-- The name/args scan of parseCommand followed by the writes of the two
reserved terminator bytes: the resulting buffer and the name and args
start indices. -/
def parseScan (st : CliCore) : List Char × Option Nat × Option Nat :=
  let r := parseScanLoop st.cmdSize 0 st.cmdBuffer none none false
  ((r.1.set st.cmdSize chNul).set (st.cmdSize + 1) chNul, r.2.1, r.2.2)

/-- parseCommand. -/
def parseCommand (st : CliCore) : CliCore :=
  match (parseScan st).2.1 with
  | none => { st with cmdBuffer := (parseScan st).1 }
  | some ni =>
      match findBinding st.bindings (readCStr (parseScan st).1 ni) 0 with
      | FindRes.invokeAt i b =>
          match (parseScan st).2.2 with
          | none =>
              invokeHandler { st with cmdBuffer := (parseScan st).1 } i b
                (readCStr (parseScan st).1 ni) none
          | some ai =>
              if b.tokenizeArgs then
                invokeHandler
                  { st with
                    cmdBuffer := writeAt (parseScan st).1 ai
                      (embeddedCliTokenizeArgs (readCStr (parseScan st).1 ai)) }
                  i b (readCStr (parseScan st).1 ni)
                  (some (embeddedCliTokenizeArgs (readCStr (parseScan st).1 ai)))
              else
                invokeHandler { st with cmdBuffer := (parseScan st).1 } i b
                  (readCStr (parseScan st).1 ni) (some (readCStr (parseScan st).1 ai))
      | _ =>
          if st.onCommand then
            { st with
              cmdBuffer := (parseScan st).1,
              dispatched := st.dispatched ++
                [CbEvent.defaultCmd (readCStr (parseScan st).1 ni)
                  (((parseScan st).2.2).map (readCStr (parseScan st).1))] }
          else onUnknownCommand { st with cmdBuffer := (parseScan st).1 }
            (readCStr (parseScan st).1 ni)

/-- onControlInput. -/
def onControlInput (c : Char) (st : CliCore) : CliCore :=
  if (st.lastChar = '\r' ∧ c = '\n') ∨ (st.lastChar = '\n' ∧ c = '\r') then st
  else if c = '\r' ∨ c = '\n' then
    let st1 := writeToOutput st lineBreak
    let st2 := if 0 < st1.cmdSize then parseCommand st1 else st1
    let st3 := { st2 with cmdSize := 0, inputLineLength := 0 }
    writeToOutput st3 st3.invitation
  else if (c = chBs ∨ c = chDel) ∧ 0 < st.cmdSize then
    let st1 := emitChar (emitChar (emitChar st chBs) ' ') chBs
    { st1 with cmdSize := st1.cmdSize - 1 }
  else if c = '\t' then onAutocompleteRequest st
  else st

/-- The per-byte body of the processing loop in embeddedCliProcess. -/
def handleByte (c : Char) (st : CliCore) : CliCore :=
  let st1 :=
    if st.escapeMode then onEscapedInput c st
    else if st.lastChar = chEsc ∧ c = '[' then { st with escapeMode := true }
    else if isControlChar c then onControlInput c st
    else if isDisplayableChar c then onCharInput c st
    else st
  let st2 := printLiveAutocompletion st1
  { st2 with lastChar := c }

/-- Process a list of bytes in order through handleByte (the effect of
draining a ring buffer that holds exactly those bytes). -/
def processChars (cs : List Char) (st : CliCore) : CliCore :=
  cs.foldl (fun s c => handleByte c s) st

/-- embeddedCliReceiveChar: push into the ring buffer, setting the
sticky overflow flag on failure. -/
def embeddedCliReceiveChar (st : CliState) (c : Char) : CliState :=
  let r := fifoBufPush st.rxBuffer c
  if r.2 then { st with rxBuffer := r.1 }
  else { core := { st.core with overflow := true }, rxBuffer := r.1 }

/-- Receive a whole chunk of bytes, one embeddedCliReceiveChar call per
byte. -/
def receiveChars (st : CliState) (cs : List Char) : CliState :=
  cs.foldl embeddedCliReceiveChar st

/-- The drain loop of embeddedCliProcess.  The C loops while bytes are
available; fuel (instantiated with the ring size, which strictly bounds
the occupancy) makes the recursion structural. -/
def drainLoop : Nat → CliState → CliState
  | 0, st => st
  | n + 1, st =>
      if fifoBufAvailable st.rxBuffer ≠ 0 then
        let r := fifoBufPop st.rxBuffer
        drainLoop n { core := handleByte r.1 st.core, rxBuffer := r.2 }
      else st

/-- embeddedCliProcess: lazy one-time invitation, full drain, then
overflow recovery (discard the in-flight line, clear the flag). -/
def embeddedCliProcess (st : CliState) : CliState :=
  let st0 :=
    if ¬ st.core.initComplete then
      { st with core := writeToOutput { st.core with initComplete := true } st.core.invitation }
    else st
  let st1 := drainLoop st0.rxBuffer.size st0
  if st1.core.overflow then
    { st1 with core := { st1.core with cmdSize := 0, overflow := false } }
  else st1

/-- embeddedCliAddBinding: append unless the registry is full. -/
def embeddedCliAddBinding (st : CliState) (b : CliBinding) : CliState × Bool :=
  if st.core.bindings.length = st.core.maxBindingsCount then (st, false)
  else
    let core' := { st.core with
                   bindings := st.core.bindings ++ [b],
                   bindingsFlags := st.core.bindingsFlags ++ [false] }
    ({ st with core := core' }, true)

/-- embeddedCliPrint: asynchronous print restoring the edited line. -/
def embeddedCliPrint (st : CliCore) (s : List Char) : CliCore :=
  let st1 := clearCurrentLine st
  let st2 := writeToOutput (writeToOutput st1 s) lineBreak
  let buf := st2.cmdBuffer.set st2.cmdSize chNul
  let st3 := writeToOutput { st2 with cmdBuffer := buf } st2.invitation
  let st4 := writeToOutput st3 (readCStr st3.cmdBuffer 0)
  printLiveAutocompletion { st4 with inputLineLength := st4.cmdSize }

/-- The built-in help binding installed by initInternalBindings. -/
def helpBinding : CliBinding :=
  { name := "help".toList, help := some ("Print list of commands".toList),
    tokenizeArgs := true, context := 0, binding := some CliHandler.helpH }

/-- The state embeddedCliNew produces: zero-initialized storage, ring
indices and command size zero, invitation "> ", and the internal help
binding inserted through embeddedCliAddBinding. -/
def embeddedCliNewState (rxSize cmdBufSize maxUserBindings : Nat)
    (onCmd hasW : Bool) : CliState :=
  let base : CliState :=
    { core :=
        { cmdBuffer := List.replicate cmdBufSize chNul,
          cmdSize := 0, cmdMaxSize := cmdBufSize,
          bindings := [], bindingsFlags := [],
          maxBindingsCount := maxUserBindings + 1,
          lastChar := chNul, inputLineLength := 0,
          overflow := false, initComplete := false, escapeMode := false,
          invitation := "> ".toList, onCommand := onCmd, hasWriteChar := hasW,
          history := { buf := [], bufferSize := 0, itemsCount := 0 },
          output := [], dispatched := [] },
      rxBuffer := { buf := List.replicate rxSize chNul, front := 0, back := 0, size := rxSize } }
  (embeddedCliAddBinding base helpBinding).1

/-- The default configuration state (rx 64, cmd 64, 8 user bindings). -/
def defaultCliState (onCmd : Bool) : CliState :=
  embeddedCliNewState 64 64 8 onCmd true

/-! ### Memory layout (embeddedCliNew / embeddedCliRequiredSize) -/

/-- The regions embeddedCliNew could carve the memory block into. -/
inductive RegionTag where
  | cliStruct
  | implStruct
  | rxRegion
  | cmdRegion
  | bindingTable
  | flagTable
  | historyRegion
  deriving Repr, DecidableEq

/-- EmbeddedCliConfig (the sizes relevant to the layout). -/
structure CliConfig where
  rxBufferSize : Nat
  cmdBufferSize : Nat
  historyBufferSize : Nat
  maxBindingCount : Nat
  deriving Repr, DecidableEq

/-- embeddedCliRequiredSize, parameterized by the platform sizes of the
two control structs and of one binding record. -/
def embeddedCliRequiredSize (szCli szImpl szBinding : Nat) (cfg : CliConfig) : Nat :=
  szCli + szImpl + cfg.rxBufferSize + cfg.cmdBufferSize + cfg.historyBufferSize +
    (cfg.maxBindingCount + 1) * szBinding + (cfg.maxBindingCount + 1)

/-- The carve performed by embeddedCliNew, as the list of
(region, offset, size) assignments made while advancing the buf
pointer. -/
def embeddedCliNewLayout (szCli szImpl szBinding : Nat) (cfg : CliConfig) :
    List (RegionTag × Nat × Nat) :=
  let o1 := szCli
  let o2 := o1 + szImpl
  let o3 := o2 + cfg.rxBufferSize
  let o4 := o3 + cfg.cmdBufferSize
  let o5 := o4 + (cfg.maxBindingCount + 1) * szBinding
  [(RegionTag.cliStruct, 0, szCli),
   (RegionTag.implStruct, o1, szImpl),
   (RegionTag.rxRegion, o2, cfg.rxBufferSize),
   (RegionTag.cmdRegion, o3, cfg.cmdBufferSize),
   (RegionTag.bindingTable, o4, (cfg.maxBindingCount + 1) * szBinding),
   (RegionTag.flagTable, o5, cfg.maxBindingCount + 1)]

end EmbeddedCli

namespace EmbeddedCli

/-! ### Run helpers used by the claims -/

/-- Deliver a chunk of bytes and run one processing call. -/
def runChunk (st : CliState) (cs : List Char) : CliState :=
  embeddedCliProcess (receiveChars st cs)

/-- Deliver a sequence of chunks, one processing call per chunk. -/
def runChunks (st : CliState) (chunks : List (List Char)) : CliState :=
  chunks.foldl runChunk st

/-! ### List helper lemmas -/

theorem getD_set_ite (l : List Char) (i j : Nat) (a d : Char) :
    (l.set i a).getD j d = if i = j ∧ i < l.length then a else l.getD j d := by
  simp only [List.getD_eq_getElem?_getD, List.getElem?_set]
  by_cases hj : i = j
  · subst hj
    by_cases hl : i < l.length
    · simp [hl]
    · simp only [if_pos rfl, if_neg hl]
      rw [List.getElem?_eq_none (Nat.le_of_not_lt hl)]
      simp [hl]
  · simp [hj]

theorem set_getD_self (l : List Char) (i : Nat) (d : Char) :
    l.set i (l.getD i d) = l := by
  induction l generalizing i with
  | nil => simp
  | cons c rest ih =>
      cases i with
      | zero => simp
      | succ k =>
          have h := ih k
          rw [List.getD_cons_succ, List.set_cons_succ, h]

/-! ### Tokenizer correctness on well-behaved inputs -/

/-- The effect of the first tokenizer pass on one character. -/
def substC (c : Char) : Char := if isSepMatch c then chNul else c

theorem tokSubstLoop_spec (t : List Char) : ∀ pre : List Char,
    tokSubstLoop t.length pre.length (pre ++ (t ++ [chNul, chNul])) =
      pre ++ (t.map substC ++ [chNul, chNul]) := by
  induction t with
  | nil => intro pre; simp [tokSubstLoop]
  | cons c w ih =>
      intro pre
      have hget : (pre ++ (c :: w ++ [chNul, chNul])).getD pre.length chNul = c := by
        rw [List.getD_append_right _ _ _ _ (Nat.le_refl _)]
        simp
      have hset : ∀ c' : Char,
          (pre ++ (c :: w ++ [chNul, chNul])).set pre.length c' =
            (pre ++ [c']) ++ (w ++ [chNul, chNul]) := by
        intro c'
        rw [List.set_append]
        simp
      have hstep : tokSubstLoop (w.length + 1) pre.length (pre ++ (c :: w ++ [chNul, chNul])) =
          tokSubstLoop w.length (pre.length + 1)
            ((pre ++ [substC c]) ++ (w ++ [chNul, chNul])) := by
        simp only [tokSubstLoop, hget, substC]
        by_cases hs : isSepMatch c
        · simp [hs, hset]
        · simp only [if_neg hs]
          have : pre ++ (c :: w ++ [chNul, chNul]) = (pre ++ [c]) ++ (w ++ [chNul, chNul]) := by
            simp
          rw [this]
      have hlen : pre.length + 1 = (pre ++ [substC c]).length := by simp
      calc tokSubstLoop (c :: w).length pre.length (pre ++ (c :: w ++ [chNul, chNul]))
          = tokSubstLoop w.length (pre.length + 1)
              ((pre ++ [substC c]) ++ (w ++ [chNul, chNul])) := by
            simpa using hstep
        _ = (pre ++ [substC c]) ++ (w.map substC ++ [chNul, chNul]) := by
            rw [hlen]; exact ih (pre ++ [substC c])
        _ = pre ++ ((c :: w).map substC ++ [chNul, chNul]) := by simp

/-- Unfolding equation for one iteration of the compression loop. -/
theorem tokMoveLoop_succ (len i : Nat) (b : List Char) (nxt : Nat) :
    tokMoveLoop len (i + 1) b nxt =
      if ¬ isSepMatch (b.getD i chNul) ∧ b.getD (i + 1) chNul = chNul then
        if nxt ≠ 0 ∧ (2 < nxt - i ∨ nxt < i) then
          tokMoveLoop len i (memmoveL b (i + 2) nxt (len - nxt + 1)) nxt
        else tokMoveLoop len i b nxt
      else if isSepMatch (b.getD i chNul) ∧ b.getD (i + 1) chNul ≠ chNul then
        tokMoveLoop len i b (i + 1)
      else tokMoveLoop len i b nxt := rfl

/-- Invariant of the compression loop at fuel value f (the next index
processed is f - 1): nextTokenStartIndex is either 0 or the position of
the first token start at index ≥ f. -/
def TokInv (B : List Char) (len f nxt : Nat) : Prop :=
  nxt = 0 ∨ (f + 1 ≤ nxt ∧ nxt ≤ len ∧ B.getD (nxt - 1) chNul = chNul ∧
    B.getD nxt chNul ≠ chNul ∧ ∀ j, f ≤ j → j < nxt - 1 → B.getD j chNul ≠ chNul)

theorem tokMoveLoop_noop (B : List Char) (len : Nat)
    (hsp : ∀ j, isSepMatch (B.getD j chNul) → B.getD j chNul = chNul)
    (hnc : ∀ j, j + 1 < len → ¬(B.getD j chNul = chNul ∧ B.getD (j + 1) chNul = chNul)) :
    ∀ i nxt, i ≤ len → TokInv B len i nxt → (tokMoveLoop len i B nxt).1 = B := by
  intro i
  induction i with
  | zero => intro nxt _ _; simp [tokMoveLoop]
  | succ i ih =>
      intro nxt hle hinv
      have hi : i < len := Nat.lt_of_succ_le hle
      rw [tokMoveLoop_succ]
      by_cases hsep : isSepMatch (B.getD i chNul)
      · have hBi : B.getD i chNul = chNul := hsp i hsep
        by_cases hnx : B.getD (i + 1) chNul = chNul
        · -- separator followed by separator or terminator: no action
          have hnxt0 : nxt = 0 := by
            rcases hinv with h0 | ⟨h2, hlen', hm1, hm2, hall⟩
            · exact h0
            · exfalso
              rcases Nat.lt_or_ge (i + 1) len with hcase | hcase
              · exact hnc i hcase ⟨hBi, hnx⟩
              · omega
          subst hnxt0
          rw [if_neg (fun hcon => hcon.1 hsep), if_neg (fun hcon => hcon.2 hnx)]
          exact ih 0 (Nat.le_of_lt hi) (Or.inl rfl)
        · -- separator with a token char after it: record the token start
          rw [if_neg (fun hcon => hcon.1 hsep), if_pos ⟨hsep, hnx⟩]
          refine ih (i + 1) (Nat.le_of_lt hi) (Or.inr ⟨by omega, by omega, ?_, hnx, ?_⟩)
          · simpa using hBi
          · intro j h1 h2; omega
      · have hBi : B.getD i chNul ≠ chNul := fun h => hsep (Or.inr h)
        by_cases hnx : B.getD (i + 1) chNul = chNul
        · -- end of a token
          have hnxt : nxt = 0 ∨ nxt = i + 2 := by
            rcases hinv with h0 | ⟨h2, hlen', hm1, hm2, hall⟩
            · exact Or.inl h0
            · right
              by_contra hne
              exact hall (i + 1) (Nat.le_refl _) (by omega) hnx
          have hcond : ¬(nxt ≠ 0 ∧ (2 < nxt - i ∨ nxt < i)) := by
            rcases hnxt with h | h <;> omega
          rw [if_pos ⟨hsep, hnx⟩, if_neg hcond]
          refine ih nxt (Nat.le_of_lt hi) ?_
          rcases hinv with h0 | ⟨h2, hlen', hm1, hm2, hall⟩
          · exact Or.inl h0
          · refine Or.inr ⟨by omega, hlen', hm1, hm2, ?_⟩
            intro j h1 hj2
            rcases Nat.lt_or_ge j (i + 1) with hc | hc
            · have hji : j = i := by omega
              subst hji; exact hBi
            · exact hall j hc hj2
        · -- interior of a token: no action
          rw [if_neg (fun hcon => hnx hcon.2), if_neg (fun hcon => hsep hcon.1)]
          refine ih nxt (Nat.le_of_lt hi) ?_
          rcases hinv with h0 | ⟨h2, hlen', hm1, hm2, hall⟩
          · exact Or.inl h0
          · refine Or.inr ⟨by omega, hlen', hm1, hm2, ?_⟩
            intro j h1 hj2
            rcases Nat.lt_or_ge j (i + 1) with hc | hc
            · have hji : j = i := by omega
              subst hji; exact hBi
            · exact hall j hc hj2

theorem tokMoveLoop_allnul (B : List Char) (len : Nat)
    (hall : ∀ j, B.getD j chNul = chNul) :
    ∀ i nxt, tokMoveLoop len i B nxt = (B, nxt) := by
  intro i
  induction i with
  | zero => intro nxt; simp [tokMoveLoop]
  | succ i ih =>
      intro nxt
      have hsep : isSepMatch (B.getD i chNul) := Or.inr (hall i)
      rw [tokMoveLoop_succ, if_neg (fun hcon => hcon.1 hsep),
        if_neg (fun hcon => hcon.2 (hall (i + 1)))]
      exact ih nxt

end EmbeddedCli

namespace EmbeddedCli

theorem getD_pair_nul (k : Nat) : ([chNul, chNul] : List Char).getD k chNul = chNul := by
  match k with
  | 0 => rfl
  | 1 => rfl
  | n + 2 => rfl

theorem set_term_self (s : List Char) :
    (s ++ [chNul, chNul]).set (s.length + 1) chNul = s ++ [chNul, chNul] := by
  have hget : (s ++ [chNul, chNul]).getD (s.length + 1) chNul = chNul := by
    rw [List.getD_append_right _ _ _ _ (by omega)]
    simp
  calc (s ++ [chNul, chNul]).set (s.length + 1) chNul
      = (s ++ [chNul, chNul]).set (s.length + 1)
          ((s ++ [chNul, chNul]).getD (s.length + 1) chNul) := by rw [hget]
    _ = s ++ [chNul, chNul] := set_getD_self _ _ _

theorem getD_map_substC (s : List Char) (j : Nat) (h : j < s.length) :
    (s.map substC).getD j chNul = substC (s.getD j chNul) := by
  simp only [List.getD_eq_getElem?_getD, List.getElem?_map]
  rw [List.getElem?_eq_getElem h]
  rfl

theorem getD_mem_of_lt (s : List Char) (j : Nat) (h : j < s.length) (d : Char) :
    s.getD j d ∈ s := by
  rw [List.getD_eq_getElem?_getD, List.getElem?_eq_getElem h]
  exact List.getElem_mem h

theorem tokBuf_getD (s : List Char) (j : Nat) :
    (s.map substC ++ [chNul, chNul]).getD j chNul =
      if j < s.length then substC (s.getD j chNul) else chNul := by
  by_cases h : j < s.length
  · rw [if_pos h, List.getD_append _ _ _ _ (by simpa using h)]
    exact getD_map_substC s j h
  · rw [if_neg h, List.getD_append_right _ _ _ _ (by simp; omega)]
    exact getD_pair_nul _

theorem substC_eq_nul_iff (c : Char) : substC c = chNul ↔ isSepMatch c := by
  unfold substC
  by_cases h : isSepMatch c
  · simp [h]
  · simp only [if_neg h]
    constructor
    · intro hc; exact absurd (Or.inr hc) h
    · intro hc; exact absurd hc h

theorem tokenizeArgs_noConsecSep (s : List Char) (h0 : chNul ∉ s)
    (hnc : ∀ j, j + 1 < s.length → ¬(s.getD j chNul = ' ' ∧ s.getD (j + 1) chNul = ' '))
    (hhd : s.getD 0 chNul ≠ ' ') :
    embeddedCliTokenizeArgs s = s.map substC ++ [chNul, chNul] := by
  by_cases hlen : s.length = 0
  · have hs : s = [] := List.length_eq_zero.mp hlen
    subst hs
    decide
  · have hB := tokSubstLoop_spec s []
    simp only [List.nil_append, List.length_nil] at hB
    have hsp : ∀ j, isSepMatch ((s.map substC ++ [chNul, chNul]).getD j chNul) →
        (s.map substC ++ [chNul, chNul]).getD j chNul = chNul := by
      intro j hj
      rw [tokBuf_getD] at hj ⊢
      by_cases h : j < s.length
      · rw [if_pos h] at hj ⊢
        by_cases hc : isSepMatch (s.getD j chNul)
        · exact (substC_eq_nul_iff _).mpr hc
        · unfold substC at hj
          rw [if_neg hc] at hj
          exact absurd hj hc
      · rw [if_neg h]
    have hncB : ∀ j, j + 1 < s.length →
        ¬((s.map substC ++ [chNul, chNul]).getD j chNul = chNul ∧
          (s.map substC ++ [chNul, chNul]).getD (j + 1) chNul = chNul) := by
      intro j hj hcon
      rcases hcon with ⟨ha, hb⟩
      rw [tokBuf_getD, if_pos (by omega)] at ha
      rw [tokBuf_getD, if_pos (by omega)] at hb
      have hma : s.getD j chNul = ' ' := by
        rcases (substC_eq_nul_iff _).mp ha with h | h
        · exact h
        · exact absurd (h ▸ getD_mem_of_lt s j (by omega) chNul) h0
      have hmb : s.getD (j + 1) chNul = ' ' := by
        rcases (substC_eq_nul_iff _).mp hb with h | h
        · exact h
        · exact absurd (h ▸ getD_mem_of_lt s (j + 1) (by omega) chNul) h0
      exact hnc j hj ⟨hma, hmb⟩
    have hmove := tokMoveLoop_noop (s.map substC ++ [chNul, chNul]) s.length hsp hncB
      s.length 0 (Nat.le_refl _) (Or.inl rfl)
    have hB0 : (s.map substC ++ [chNul, chNul]).getD 0 chNul ≠ chNul := by
      rw [tokBuf_getD, if_pos (by omega)]
      intro hcon
      rcases (substC_eq_nul_iff _).mp hcon with h | h
      · exact hhd h
      · exact absurd (h ▸ getD_mem_of_lt s 0 (by omega) chNul) h0
    show (if s.length = 0 then (s ++ [chNul, chNul]).set (s.length + 1) chNul
      else
        let b1 := tokSubstLoop s.length 0 ((s ++ [chNul, chNul]).set (s.length + 1) chNul)
        let r := tokMoveLoop s.length s.length b1 0
        if r.1.getD 0 chNul = chNul ∧ 0 < r.2 then
          memmoveL r.1 0 r.2 (s.length - r.2 + 1)
        else r.1) = s.map substC ++ [chNul, chNul]
    rw [if_neg hlen]
    simp only [set_term_self, hB]
    rw [if_neg (fun hcon => hB0 (by rw [← hmove]; exact hcon.1))]
    exact hmove

theorem map_substC_allSep (s : List Char) (hall : ∀ c ∈ s, c = ' ') :
    s.map substC = List.replicate s.length chNul := by
  induction s with
  | nil => rfl
  | cons c rest ih =>
      have hc : c = ' ' := hall c (List.mem_cons_self c rest)
      subst hc
      have : substC ' ' = chNul := by decide
      simp only [List.map_cons, this, List.length_cons, List.replicate_succ]
      rw [ih (fun c hc => hall c (List.mem_cons_of_mem _ hc))]

theorem getD_replicate_nul (n j : Nat) :
    (List.replicate n chNul).getD j chNul = chNul := by
  induction n generalizing j with
  | zero => simp
  | succ k ih =>
      cases j with
      | zero => simp [List.replicate_succ]
      | succ m => simp only [List.replicate_succ, List.getD_cons_succ]; exact ih m

theorem tokenizeArgs_allSep (s : List Char) (hall : ∀ c ∈ s, c = ' ') :
    embeddedCliTokenizeArgs s = List.replicate (s.length + 2) chNul := by
  have hrep : s.map substC ++ [chNul, chNul] = List.replicate (s.length + 2) chNul := by
    rw [map_substC_allSep s hall]
    have : List.replicate (s.length + 2) chNul =
        List.replicate s.length chNul ++ List.replicate 2 chNul := by
      rw [← List.replicate_add]
    rw [this]
    rfl
  by_cases hlen : s.length = 0
  · have hs : s = [] := List.length_eq_zero.mp hlen
    subst hs
    decide
  · have hB := tokSubstLoop_spec s []
    simp only [List.nil_append, List.length_nil] at hB
    have hallB : ∀ j, (s.map substC ++ [chNul, chNul]).getD j chNul = chNul := by
      intro j
      rw [hrep]
      exact getD_replicate_nul _ _
    have hmove := tokMoveLoop_allnul (s.map substC ++ [chNul, chNul]) s.length hallB
      s.length 0
    show (if s.length = 0 then (s ++ [chNul, chNul]).set (s.length + 1) chNul
      else
        let b1 := tokSubstLoop s.length 0 ((s ++ [chNul, chNul]).set (s.length + 1) chNul)
        let r := tokMoveLoop s.length s.length b1 0
        if r.1.getD 0 chNul = chNul ∧ 0 < r.2 then
          memmoveL r.1 0 r.2 (s.length - r.2 + 1)
        else r.1) = List.replicate (s.length + 2) chNul
    rw [if_neg hlen]
    simp only [set_term_self, hB, hmove]
    rw [if_neg (fun hcon => Nat.lt_irrefl 0 hcon.2)]
    exact hrep

end EmbeddedCli

namespace EmbeddedCli

/-! ### Claim C2: tokenizer behaviour -/

/-- C2 (amended): tokenizing "a b c" yields exactly the tokens "a", "b",
"c" followed by end-of-tokens, and "   a  b    c   " gives the same
tokens; an all-separator or empty input collapses to no tokens (the
result begins with the double terminator, and the token count is 0); and
every input that contains no two consecutive separators AND does not
begin with a separator is only changed by substituting each separator
byte with a terminator (plus the appended double terminator).  The
original claim asserted the substitution-only property for every input
without two consecutive separators; a leading separator is a
counterexample (see the counterexample theorem), because the tokenizer
strips leading separators by shifting the content left. -/
theorem c2_tokenizer_behaviour :
    (embeddedCliTokenizeArgs ("a b c".toList) =
      ['a', chNul, 'b', chNul, 'c', chNul, chNul]) ∧
    ((embeddedCliTokenizeArgs ("   a  b    c   ".toList)).take 7 =
        ['a', chNul, 'b', chNul, 'c', chNul, chNul] ∧
      embeddedCliGetTokenCount (embeddedCliTokenizeArgs ("   a  b    c   ".toList)) = 3 ∧
      embeddedCliGetToken (embeddedCliTokenizeArgs ("   a  b    c   ".toList)) 1 =
        some ("a".toList) ∧
      embeddedCliGetToken (embeddedCliTokenizeArgs ("   a  b    c   ".toList)) 2 =
        some ("b".toList) ∧
      embeddedCliGetToken (embeddedCliTokenizeArgs ("   a  b    c   ".toList)) 3 =
        some ("c".toList) ∧
      embeddedCliGetToken (embeddedCliTokenizeArgs ("   a  b    c   ".toList)) 4 = none) ∧
    (∀ s : List Char, (∀ c ∈ s, c = ' ') →
      (embeddedCliTokenizeArgs s).take 2 = [chNul, chNul] ∧
      embeddedCliGetTokenCount (embeddedCliTokenizeArgs s) = 0) ∧
    (∀ s : List Char, chNul ∉ s →
      (∀ j, j + 1 < s.length → ¬(s.getD j chNul = ' ' ∧ s.getD (j + 1) chNul = ' ')) →
      s.getD 0 chNul ≠ ' ' →
      embeddedCliTokenizeArgs s =
        s.map (fun c => if c = ' ' then chNul else c) ++ [chNul, chNul]) := by
  refine ⟨by decide, ⟨by decide, by decide, by decide, by decide, by decide, by decide⟩,
    ?_, ?_⟩
  · intro s hall
    have h := tokenizeArgs_allSep s hall
    constructor
    · rw [h]
      have h2 : 2 ≤ s.length + 2 := by omega
      calc (List.replicate (s.length + 2) chNul).take 2
          = List.replicate (min 2 (s.length + 2)) chNul := by rw [List.take_replicate]
        _ = [chNul, chNul] := by rw [Nat.min_eq_left h2]; rfl
    · rw [embeddedCliGetTokenCount, h, if_pos (getD_replicate_nul _ _)]
  · intro s h0 hnc hhd
    rw [tokenizeArgs_noConsecSep s h0 hnc hhd]
    have : s.map substC = s.map (fun c => if c = ' ' then chNul else c) := by
      apply List.map_congr_left
      intro c hc
      unfold substC isSepMatch
      by_cases hsp : c = ' '
      · simp [hsp]
      · have hnn : ¬ c = chNul := fun h => h0 (h ▸ hc)
        simp [hsp, hnn]
    rw [this]

/-- C2 counterexample: " a" contains no two consecutive separators, yet
tokenization does not just substitute the separator byte: the leading
separator is stripped and the content shifted left. -/
theorem c2_counterexample :
    (∀ j, j + 1 < (" a".toList).length →
      ¬((" a".toList).getD j chNul = ' ' ∧ (" a".toList).getD (j + 1) chNul = ' ')) ∧
    embeddedCliTokenizeArgs (" a".toList) = ['a', chNul, chNul, chNul] ∧
    embeddedCliTokenizeArgs (" a".toList) ≠
      (" a".toList).map (fun c => if c = ' ' then chNul else c) ++ [chNul, chNul] := by
  refine ⟨?_, by decide, by decide⟩
  intro j hj
  have hlen : (" a".toList).length = 2 := by decide
  rw [hlen] at hj
  have hj0 : j = 0 := by omega
  subst hj0
  decide

/-- C2 witness: the amended substitution-only property applied at a
concrete input, and the all-separator collapse at a concrete input. -/
theorem c2_witness :
    ((embeddedCliTokenizeArgs ("  ".toList)).take 2 = [chNul, chNul] ∧
      embeddedCliGetTokenCount (embeddedCliTokenizeArgs ("  ".toList)) = 0) ∧
    embeddedCliTokenizeArgs ("ab c".toList) =
      ("ab c".toList).map (fun c => if c = ' ' then chNul else c) ++ [chNul, chNul] :=
  ⟨c2_tokenizer_behaviour.2.2.1 ("  ".toList) (by decide),
   c2_tokenizer_behaviour.2.2.2 ("ab c".toList) (by decide)
     (by
       intro j hj
       have hlen : ("ab c".toList).length = 4 := by decide
       rw [hlen] at hj
       rcases j with _ | _ | _ | j
       · decide
       · decide
       · decide
       · omega) (by decide)⟩

/-! ### Claim C3: token accessors versus tokenizer output -/

/-- C3: the code is wrong.  Tokenizing "  a" must produce the single
token "a", but the final strip of leading terminators copies one byte
too few (len - nextTokenStartIndex + 1), losing the second byte of the
double terminator: the output buffer is "a\x00a\x00\x00", a stale
byte "a" is left where the end-of-tokens terminator belongs,
getTokenCount reports 2 instead of 1, and getToken at count + 1
(position 2 for the 1 real token) returns a token instead of none. -/
theorem c3_accessor_bug :
    tokensSpec ("  a".toList) = [("a".toList)] ∧
    embeddedCliTokenizeArgs ("  a".toList) = ['a', chNul, 'a', chNul, chNul] ∧
    embeddedCliGetTokenCount (embeddedCliTokenizeArgs ("  a".toList)) = 2 ∧
    embeddedCliGetToken (embeddedCliTokenizeArgs ("  a".toList)) 2 = some ("a".toList) := by
  decide

/-! ### Claim C7: history insertion -/

/-- C7: the code is wrong.  Inserting a first entry into an empty
history (whose buffer is easily large enough) makes historyPut's
eviction loop call historyGet with item = itemsCount = 0, which returns
NULL; the C code passes that NULL to strlen — undefined behaviour,
modelled as the none result.  The insertion never succeeds (and
itemsCount is never incremented anywhere, so historyGet 1 could never
return the new entry). -/
theorem c7_history_bug :
    ("abc".toList).length + 1 ≤ 128 ∧
    historyPut { buf := List.replicate 128 chNul, bufferSize := 128, itemsCount := 0 }
      ("abc".toList) = none ∧
    historyGet { buf := List.replicate 128 chNul, bufferSize := 128, itemsCount := 0 } 1 =
      none := by
  decide

/-! ### Claim C9: memory layout -/

/-- C9 counterexample: with the default configuration (and
representative struct sizes), the carve performed by construction
assigns no region to the history store, even though the required-size
function counts historyBufferSize = 128 toward the total. -/
theorem c9_counterexample :
    (∀ e ∈ embeddedCliNewLayout 16 64 20 ⟨64, 64, 128, 8⟩, e.1 ≠ RegionTag.historyRegion) ∧
    embeddedCliRequiredSize 16 64 20 ⟨64, 64, 128, 8⟩ =
      ((embeddedCliNewLayout 16 64 20 ⟨64, 64, 128, 8⟩).map (fun e => e.2.2)).sum + 128 := by
  decide

/-- C9 (amended): construction carves the block, in fixed order, into
control state (the two structs), receive ring buffer, command buffer,
binding table and per-binding flag table — contiguously from offset 0 —
but it does NOT carve a history region, although the required-size
function counts historyBufferSize toward the total. -/
theorem c9_layout_amended (szCli szImpl szBinding : Nat) (cfg : CliConfig) :
    (embeddedCliNewLayout szCli szImpl szBinding cfg).map (fun e => e.1) =
      [RegionTag.cliStruct, RegionTag.implStruct, RegionTag.rxRegion,
       RegionTag.cmdRegion, RegionTag.bindingTable, RegionTag.flagTable] ∧
    (∀ e ∈ embeddedCliNewLayout szCli szImpl szBinding cfg, e.1 ≠ RegionTag.historyRegion) ∧
    ((embeddedCliNewLayout szCli szImpl szBinding cfg).head?.map (fun e => e.2.1) =
      some 0) ∧
    List.Chain' (fun a b => a.2.1 + a.2.2 = b.2.1)
      (embeddedCliNewLayout szCli szImpl szBinding cfg) ∧
    embeddedCliRequiredSize szCli szImpl szBinding cfg =
      ((embeddedCliNewLayout szCli szImpl szBinding cfg).map (fun e => e.2.2)).sum +
        cfg.historyBufferSize := by
  refine ⟨rfl, ?_, rfl, ?_, ?_⟩
  · intro e he
    simp only [embeddedCliNewLayout, List.mem_cons, List.not_mem_nil, or_false] at he
    rcases he with h | h | h | h | h | h <;> subst h <;> simp
  · simp [embeddedCliNewLayout]
  · simp [embeddedCliNewLayout, embeddedCliRequiredSize]
    ring

end EmbeddedCli

namespace EmbeddedCli

/-! ### Ring buffer refinement (claim C4) -/

theorem mod_add_split (a k n : Nat) (ha : a < n) (hk : k ≤ n) :
    (a + k) % n = if a + k < n then a + k else a + k - n := by
  by_cases h : a + k < n
  · rw [if_pos h, Nat.mod_eq_of_lt h]
  · rw [if_neg h, Nat.mod_eq_sub_mod (by omega), Nat.mod_eq_of_lt (by omega)]

theorem fifoAvail_lt (b : FifoBuf) (h : FifoWF b) : fifoBufAvailable b < b.size := by
  rcases h with ⟨hlen, hf, hb⟩
  unfold fifoBufAvailable
  by_cases hc : b.front ≤ b.back
  · rw [if_pos hc]; omega
  · rw [if_neg hc]; omega

theorem fifoToList_length (b : FifoBuf) : (fifoToList b).length = fifoBufAvailable b := by
  simp [fifoToList]

theorem fifo_front_eq_back_iff (b : FifoBuf) (h : FifoWF b) :
    b.front = b.back ↔ fifoBufAvailable b = 0 := by
  rcases h with ⟨hlen, hf, hb⟩
  unfold fifoBufAvailable
  by_cases hc : b.front ≤ b.back
  · rw [if_pos hc]
    constructor <;> intro h' <;> omega
  · rw [if_neg hc]
    constructor <;> intro h' <;> omega

theorem fifo_back_formula (b : FifoBuf) (h : FifoWF b) :
    (b.front + fifoBufAvailable b) % b.size = b.back := by
  rcases h with ⟨hlen, hf, hb⟩
  unfold fifoBufAvailable
  by_cases hc : b.front ≤ b.back
  · rw [if_pos hc, Nat.mod_eq_of_lt (by omega)]
    omega
  · rw [if_neg hc]
    have h1 : b.front + (b.size - b.front + b.back) = b.size + b.back := by omega
    rw [h1, Nat.add_comm b.size b.back, Nat.add_mod_right, Nat.mod_eq_of_lt hb]

theorem mod_add_ne (front k m n : Nat) (hf : front < n) (hk : k < m) (hm : m < n) :
    (front + k) % n ≠ (front + m) % n := by
  rw [mod_add_split front k n hf (by omega), mod_add_split front m n hf (by omega)]
  by_cases h1 : front + k < n
  · rw [if_pos h1]
    by_cases h2 : front + m < n
    · rw [if_pos h2]; omega
    · rw [if_neg h2]; omega
  · rw [if_neg h1]
    by_cases h2 : front + m < n
    · rw [if_pos h2]; omega
    · rw [if_neg h2]; omega

theorem fifoBufPop_queue (b : FifoBuf) (h : FifoWF b) (c : Char) (rest : List Char)
    (hq : fifoToList b = c :: rest) :
    (fifoBufPop b).1 = c ∧ fifoToList (fifoBufPop b).2 = rest ∧
      FifoWF (fifoBufPop b).2 ∧ (fifoBufPop b).2.size = b.size ∧
      (fifoBufPop b).2.buf = b.buf ∧ (fifoBufPop b).2.back = b.back := by
  obtain ⟨hlen, hf, hb⟩ := h
  have hlq := fifoToList_length b
  rw [hq] at hlq
  simp only [List.length_cons] at hlq
  have hav : 0 < fifoBufAvailable b := by omega
  have hne : b.front ≠ b.back := by
    intro hcon
    have h0 := (fifo_front_eq_back_iff b ⟨hlen, hf, hb⟩).mp hcon
    omega
  obtain ⟨m, hm⟩ : ∃ m, fifoBufAvailable b = m + 1 := ⟨fifoBufAvailable b - 1, by omega⟩
  have havlt : fifoBufAvailable b < b.size := fifoAvail_lt b ⟨hlen, hf, hb⟩
  have hsplit : fifoToList b = b.buf.getD b.front chNul ::
      (List.range m).map (fun k => b.buf.getD ((b.front + (k + 1)) % b.size) chNul) := by
    unfold fifoToList
    rw [hm, List.range_succ_eq_map, List.map_cons, List.map_map]
    congr 1
    · rw [Nat.add_zero, Nat.mod_eq_of_lt hf]
  rw [hq] at hsplit
  injection hsplit with hc hrest
  have havail' : fifoBufAvailable { b with front := (b.front + 1) % b.size } = m := by
    unfold fifoBufAvailable at hm ⊢
    simp only
    rw [mod_add_split b.front 1 b.size hf (by omega)]
    by_cases hc2 : b.front + 1 < b.size
    · rw [if_pos hc2]
      by_cases hcf : b.front ≤ b.back
      · rw [if_pos hcf] at hm
        rw [if_pos (show b.front + 1 ≤ b.back by omega)]
        omega
      · rw [if_neg hcf] at hm
        rw [if_neg (show ¬ b.front + 1 ≤ b.back by omega)]
        omega
    · rw [if_neg hc2]
      rw [if_neg (show ¬ b.front ≤ b.back by omega)] at hm
      rw [if_pos (show b.front + 1 - b.size ≤ b.back by omega)]
      omega
  unfold fifoBufPop
  rw [if_pos hne]
  refine ⟨hc.symm, ?_, ⟨hlen, ?_, hb⟩, rfl, rfl, rfl⟩
  · rw [hrest]
    unfold fifoToList
    simp only [havail']
    apply List.map_congr_left
    intro k hk
    show b.buf.getD (((b.front + 1) % b.size + k) % b.size) chNul =
      b.buf.getD ((b.front + (k + 1)) % b.size) chNul
    rw [Nat.mod_add_mod]
    congr 2
    omega
  · simp only
    exact Nat.mod_lt _ (by omega)

theorem fifoBufPop_empty (b : FifoBuf) (h : FifoWF b) (hq : fifoToList b = []) :
    fifoBufPop b = (chNul, b) := by
  have hav : fifoBufAvailable b = 0 := by
    have h1 := fifoToList_length b
    rw [hq] at h1
    simpa using h1.symm
  unfold fifoBufPop
  rw [if_neg]
  intro hcon
  exact hcon ((fifo_front_eq_back_iff b h).mpr hav)

theorem fifoBufPush_full (b : FifoBuf) (h : FifoWF b)
    (hfull : fifoBufAvailable b = b.size - 1) (a : Char) :
    fifoBufPush b a = (b, false) := by
  obtain ⟨hlen, hf, hb⟩ := h
  have hback := fifo_back_formula b ⟨hlen, hf, hb⟩
  rw [hfull] at hback
  have hkey : (b.back + 1) % b.size = b.front := by
    calc (b.back + 1) % b.size
        = ((b.front + (b.size - 1)) % b.size + 1) % b.size := by rw [hback]
      _ = (b.front + (b.size - 1) + 1) % b.size := by rw [Nat.mod_add_mod]
      _ = (b.front + b.size) % b.size := by congr 1; omega
      _ = b.front % b.size := by rw [Nat.add_mod_right]
      _ = b.front := Nat.mod_eq_of_lt hf
  unfold fifoBufPush
  simp only
  rw [if_neg (fun hcon => hcon hkey)]

theorem fifoBufPush_ok (b : FifoBuf) (h : FifoWF b)
    (hnf : fifoBufAvailable b < b.size - 1) (a : Char) :
    (fifoBufPush b a).2 = true ∧
      fifoToList (fifoBufPush b a).1 = fifoToList b ++ [a] ∧
      FifoWF (fifoBufPush b a).1 ∧ (fifoBufPush b a).1.size = b.size ∧
      (fifoBufPush b a).1.front = b.front := by
  obtain ⟨hlen, hf, hb⟩ := h
  have havlt : fifoBufAvailable b < b.size := by omega
  have hback0 := fifo_back_formula b ⟨hlen, hf, hb⟩
  have havd : fifoBufAvailable b =
      if b.front ≤ b.back then b.back - b.front else b.size - b.front + b.back := rfl
  have hback := hback0
  rw [mod_add_split b.front (fifoBufAvailable b) b.size hf (by omega)] at hback
  have hne : (b.back + 1) % b.size ≠ b.front := by
    rw [mod_add_split b.back 1 b.size hb (by omega)]
    by_cases hc1 : b.front + fifoBufAvailable b < b.size
    · rw [if_pos hc1] at hback
      by_cases hc2 : b.back + 1 < b.size
      · rw [if_pos hc2]; omega
      · rw [if_neg hc2]; omega
    · rw [if_neg hc1] at hback
      by_cases hc2 : b.back + 1 < b.size
      · rw [if_pos hc2]; omega
      · rw [if_neg hc2]; omega
  have havail' : fifoBufAvailable
      { b with buf := b.buf.set b.back a, back := (b.back + 1) % b.size } =
      fifoBufAvailable b + 1 := by
    unfold fifoBufAvailable
    simp only
    rw [mod_add_split b.back 1 b.size hb (by omega)]
    by_cases hc2 : b.back + 1 < b.size
    · rw [if_pos hc2]
      by_cases hcf : b.front ≤ b.back
      · rw [if_pos hcf] at havd
        rw [if_pos (show b.front ≤ b.back + 1 by omega), if_pos hcf]
        omega
      · rw [if_neg hcf] at havd
        rw [if_neg (show ¬ b.front ≤ b.back + 1 by omega), if_neg hcf]
        omega
    · rw [if_neg hc2]
      by_cases hcf : b.front ≤ b.back
      · rw [if_pos hcf] at havd
        rw [if_neg (show ¬ b.front ≤ b.back + 1 - b.size by omega), if_pos hcf]
        omega
      · exfalso
        omega
  unfold fifoBufPush
  simp only
  rw [if_pos hne]
  refine ⟨rfl, ?_, ⟨by simpa using hlen, hf, ?_⟩, rfl, rfl⟩
  · unfold fifoToList
    simp only [havail']
    rw [List.range_succ, List.map_append]
    congr 1
    · apply List.map_congr_left
      intro k hk
      simp only [List.mem_range] at hk
      show (b.buf.set b.back a).getD ((b.front + k) % b.size) chNul =
        b.buf.getD ((b.front + k) % b.size) chNul
      rw [getD_set_ite, if_neg]
      intro hcon
      have hne2 := mod_add_ne b.front k (fifoBufAvailable b) b.size hf hk havlt
      rw [hback0] at hne2
      exact hne2 hcon.1.symm
    · simp only [List.map_cons, List.map_nil]
      rw [hback0, getD_set_ite, if_pos ⟨rfl, by omega⟩]
  · simp only
    exact Nat.mod_lt _ (by omega)

/-- Operations on the byte queue. -/
inductive FifoOp where
  | pushOp (c : Char)
  | popOp
  deriving Repr, DecidableEq

/-- Results observed while running operations. -/
inductive FifoOut where
  | pushed (ok : Bool)
  | popped (c : Char)
  deriving Repr, DecidableEq

/-- Run a sequence of operations on the ring buffer, collecting the
observable results. -/
def runFifo : List FifoOp → FifoBuf → FifoBuf × List FifoOut
  | [], b => (b, [])
  | FifoOp.pushOp c :: ops, b =>
      ((runFifo ops (fifoBufPush b c).1).1,
        FifoOut.pushed (fifoBufPush b c).2 :: (runFifo ops (fifoBufPush b c).1).2)
  | FifoOp.popOp :: ops, b =>
      ((runFifo ops (fifoBufPop b).2).1,
        FifoOut.popped (fifoBufPop b).1 :: (runFifo ops (fifoBufPop b).2).2)

/-- The specification queue: a plain list holding at most cap - 1 bytes;
push appends at the tail, pop takes the head (0 when empty), so bytes
leave in exactly the order they were pushed. -/
def runQueue (cap : Nat) : List FifoOp → List Char → List Char × List FifoOut
  | [], q => (q, [])
  | FifoOp.pushOp c :: ops, q =>
      if q.length = cap - 1 then
        ((runQueue cap ops q).1, FifoOut.pushed false :: (runQueue cap ops q).2)
      else
        ((runQueue cap ops (q ++ [c])).1,
          FifoOut.pushed true :: (runQueue cap ops (q ++ [c])).2)
  | FifoOp.popOp :: ops, q =>
      ((runQueue cap ops q.tail).1,
        FifoOut.popped (q.headD chNul) :: (runQueue cap ops q.tail).2)

theorem runFifo_refines (ops : List FifoOp) : ∀ (b : FifoBuf), FifoWF b →
    (runFifo ops b).2 = (runQueue b.size ops (fifoToList b)).2 ∧
      fifoToList (runFifo ops b).1 = (runQueue b.size ops (fifoToList b)).1 ∧
      FifoWF (runFifo ops b).1 ∧ (runFifo ops b).1.size = b.size := by
  induction ops with
  | nil => intro b hwf; exact ⟨rfl, rfl, hwf, rfl⟩
  | cons op ops ih =>
      intro b hwf
      cases op with
      | pushOp c =>
          by_cases hfull : fifoBufAvailable b = b.size - 1
          · have hpush := fifoBufPush_full b hwf hfull c
            have hqlen : (fifoToList b).length = b.size - 1 := by
              rw [fifoToList_length]; exact hfull
            obtain ⟨h1, h2, h3, h4⟩ := ih b hwf
            simp only [runFifo, runQueue, hpush, if_pos hqlen]
            exact ⟨by rw [h1], h2, h3, h4⟩
          · have hlt : fifoBufAvailable b < b.size - 1 := by
              have := fifoAvail_lt b hwf
              omega
            obtain ⟨hp1, hp2, hp3, hp4, hp5⟩ := fifoBufPush_ok b hwf hlt c
            have hqlen : ¬ (fifoToList b).length = b.size - 1 := by
              rw [fifoToList_length]; omega
            obtain ⟨h1, h2, h3, h4⟩ := ih (fifoBufPush b c).1 hp3
            simp only [runFifo, runQueue, if_neg hqlen]
            rw [hp1]
            refine ⟨?_, ?_, h3, by rw [h4, hp4]⟩
            · rw [h1, hp2, hp4]
            · rw [h2, hp2, hp4]
      | popOp =>
          rcases hq : fifoToList b with _ | ⟨c, rest⟩
          · have hpop := fifoBufPop_empty b hwf hq
            obtain ⟨h1, h2, h3, h4⟩ := ih b hwf
            simp only [runFifo, runQueue, hpop, hq, List.tail_nil, List.headD_nil]
            exact ⟨by rw [h1, hq], by rw [h2, hq], h3, h4⟩
          · obtain ⟨hp1, hp2, hp3, hp4, _, _⟩ := fifoBufPop_queue b hwf c rest hq
            obtain ⟨h1, h2, h3, h4⟩ := ih (fifoBufPop b).2 hp3
            simp only [runFifo, runQueue, hq, List.tail_cons, List.headD_cons]
            rw [hp1]
            refine ⟨?_, ?_, h3, by rw [h4, hp4]⟩
            · rw [h1, hp2, hp4]
            · rw [h2, hp2, hp4]

end EmbeddedCli

namespace EmbeddedCli

/-- C4: the ring buffer refines a plain FIFO queue of usable capacity
size - 1: running any sequence of pushes and pops on the ring buffer
produces exactly the push results and popped bytes that the list queue
produces (so bytes pop in exactly push order), and a push attempted when
the occupied count equals size - 1 returns false and leaves the buffer
contents and both indices unchanged. -/
theorem c4_ring_buffer_fifo :
    (∀ (ops : List FifoOp) (b : FifoBuf), FifoWF b →
      (runFifo ops b).2 = (runQueue b.size ops (fifoToList b)).2 ∧
        fifoToList (runFifo ops b).1 = (runQueue b.size ops (fifoToList b)).1) ∧
    (∀ (b : FifoBuf) (a : Char), FifoWF b → fifoBufAvailable b = b.size - 1 →
      fifoBufPush b a = (b, false)) := by
  constructor
  · intro ops b hwf
    obtain ⟨h1, h2, _, _⟩ := runFifo_refines ops b hwf
    exact ⟨h1, h2⟩
  · intro b a hwf hfull
    exact fifoBufPush_full b hwf hfull a

/-- A concrete ring buffer (capacity 4, indices mid-array) for the C4
witness. -/
def c4fifo : FifoBuf := ⟨List.replicate 4 chNul, 2, 2, 4⟩

/-- A concrete full ring buffer (capacity 3 holding 2 bytes) for the C4
witness. -/
def c4full : FifoBuf := ⟨['x', 'y', 'z'], 0, 2, 3⟩

/-- Concrete operation sequence exercising wrap-around, a failing push
and pops, for the C4 witness. -/
def c4ops : List FifoOp :=
  [FifoOp.pushOp 'a', FifoOp.pushOp 'b', FifoOp.pushOp 'c', FifoOp.popOp,
   FifoOp.pushOp 'd', FifoOp.popOp, FifoOp.popOp, FifoOp.popOp]

instance (b : FifoBuf) : Decidable (FifoWF b) := by
  unfold FifoWF; infer_instance

/-- C4 witness: the refinement applied to a concrete run, and the
failing push applied to a concrete full buffer. -/
theorem c4_witness :
    ((runFifo c4ops c4fifo).2 = (runQueue c4fifo.size c4ops (fifoToList c4fifo)).2 ∧
      fifoToList (runFifo c4ops c4fifo).1 = (runQueue c4fifo.size c4ops (fifoToList c4fifo)).1) ∧
    fifoBufPush c4full 'q' = (c4full, false) :=
  ⟨c4_ring_buffer_fifo.1 c4ops c4fifo (by decide),
   c4_ring_buffer_fifo.2 c4full 'q' (by decide) (by decide)⟩

/-! ### Claim C10: first-match binding with NULL handler -/

theorem dispatched_writeToOutput (s : List Char) : ∀ st : CliCore,
    (writeToOutput st s).dispatched = st.dispatched := by
  induction s with
  | nil => intro st; rfl
  | cons c rest ih =>
      intro st
      show (writeToOutput (emitChar st c) rest).dispatched = st.dispatched
      rw [ih (emitChar st c)]
      rfl

theorem dispatched_onUnknownCommand (st : CliCore) (nm : List Char) :
    (onUnknownCommand st nm).dispatched =
      st.dispatched ++ [CbEvent.unknownCmd nm] := by
  unfold onUnknownCommand
  simp only [dispatched_writeToOutput]

theorem findBinding_stopNull (nm : List Char) (b : CliBinding)
    (hb : b.name = nm) (hnull : b.binding = none) :
    ∀ (pre : List CliBinding), (∀ p ∈ pre, p.name ≠ nm) → ∀ (post : List CliBinding) (k : Nat),
      findBinding (pre ++ b :: post) nm k = FindRes.stopNull := by
  intro pre
  induction pre with
  | nil =>
      intro _ post k
      simp only [List.nil_append, findBinding]
      rw [if_pos hb, hnull]
      rfl
  | cons p rest ih =>
      intro hpre post k
      have hp : ¬ p.name = nm := hpre p (List.mem_cons_self p rest)
      simp only [List.cons_append, findBinding]
      rw [if_neg hp]
      exact ih (fun q hq => hpre q (List.mem_cons_of_mem p hq)) post (k + 1)

/-- C10: when the submitted name's first registry match is a binding
whose handler is NULL, the scan stops there: no binding handler runs
(the dispatched events contain no invoke event), and dispatch falls
through to the application default handler when registered, otherwise
the unknown-command notice. A later binding with the same name and a
non-null handler is never invoked. -/
theorem c10_null_handler_fallthrough (st : CliCore) (pre post : List CliBinding)
    (b : CliBinding) (nm : List Char) (ni : Nat)
    (hbind : st.bindings = pre ++ b :: post)
    (hpre : ∀ p ∈ pre, p.name ≠ nm) (hb : b.name = nm) (hnull : b.binding = none)
    (hni : (parseScan st).2.1 = some ni)
    (hnm : readCStr (parseScan st).1 ni = nm) :
    (parseCommand st).dispatched = st.dispatched ++
      [if st.onCommand then
        CbEvent.defaultCmd nm (((parseScan st).2.2).map (readCStr (parseScan st).1))
       else CbEvent.unknownCmd nm] := by
  simp only [parseCommand, hni, hnm, hbind,
    findBinding_stopNull nm b hb hnull pre hpre post 0]
  by_cases hoc : st.onCommand
  · rw [if_pos hoc, if_pos hoc]
  · rw [if_neg hoc, if_neg hoc]
    rw [dispatched_onUnknownCommand]

/-- The bindings used by the C10 witness: a "set" binding with NULL
handler registered before a "set" binding with a real handler. -/
def c10nullSet : CliBinding :=
  { name := "set".toList, help := none, tokenizeArgs := false, context := 0, binding := none }

/-- The shadowed later "set" binding with a real handler. -/
def c10realSet : CliBinding :=
  { name := "set".toList, help := none, tokenizeArgs := false, context := 0,
    binding := some (CliHandler.extH 1) }

/-- A concrete engine core about to parse the submitted line "set 1". -/
def c10core : CliCore :=
  { (defaultCliState true).core with
    bindings := [helpBinding, c10nullSet, c10realSet],
    bindingsFlags := [false, false, false],
    cmdBuffer := "set 1".toList ++ List.replicate 59 chNul,
    cmdSize := 5 }

/-- C10 witness: parsing "set 1" against [help, set(null), set(real)]
dispatches the default handler with the untokenized arguments; the
later same-named binding is not invoked. -/
theorem c10_witness :
    (parseCommand c10core).dispatched =
      [CbEvent.defaultCmd ("set".toList) (some ("1".toList))] := by
  rw [c10_null_handler_fallthrough c10core [helpBinding] [c10realSet] c10nullSet
    ("set".toList) 0 (by decide) (by decide) (by decide) (by decide) (by decide) (by decide)]
  decide

end EmbeddedCli

namespace EmbeddedCli

/-! ### Frame lemmas: which fields each processing-side function can
touch -/

/-- The engine fields no byte-processing function modifies. -/
def Frame (a b : CliCore) : Prop :=
  a.cmdMaxSize = b.cmdMaxSize ∧ a.bindings = b.bindings ∧
  a.maxBindingsCount = b.maxBindingsCount ∧ a.invitation = b.invitation ∧
  a.onCommand = b.onCommand ∧ a.hasWriteChar = b.hasWriteChar ∧
  a.overflow = b.overflow ∧ a.initComplete = b.initComplete ∧ a.history = b.history

theorem frame_refl (a : CliCore) : Frame a a :=
  ⟨rfl, rfl, rfl, rfl, rfl, rfl, rfl, rfl, rfl⟩

theorem frame_trans {a b c : CliCore} (h1 : Frame a b) (h2 : Frame b c) : Frame a c := by
  obtain ⟨x1, x2, x3, x4, x5, x6, x7, x8, x9⟩ := h1
  obtain ⟨y1, y2, y3, y4, y5, y6, y7, y8, y9⟩ := h2
  exact ⟨x1.trans y1, x2.trans y2, x3.trans y3, x4.trans y4, x5.trans y5,
    x6.trans y6, x7.trans y7, x8.trans y8, x9.trans y9⟩

theorem writeToOutput_eq (s : List Char) : ∀ st : CliCore,
    writeToOutput st s = { st with output := st.output ++ s } := by
  induction s with
  | nil => intro st; show st = _; rw [List.append_nil]
  | cons c rest ih =>
      intro st
      show writeToOutput (emitChar st c) rest = _
      rw [ih (emitChar st c)]
      show ({ st with output := (st.output ++ [c]) ++ rest } : CliCore) = _
      rw [List.append_assoc]
      rfl

theorem clearCurrentLine_eq (st : CliCore) :
    clearCurrentLine st =
      { st with
        output := ((st.output ++ ['\r']) ++
          List.replicate (st.inputLineLength + st.invitation.length) ' ') ++ ['\r'],
        inputLineLength := 0 } := by
  simp only [clearCurrentLine, emitChar]
  rw [writeToOutput_eq]

theorem acWrite_shape (first : List Char) : ∀ (k i : Nat) (st : CliCore),
    ∃ o buf, acWrite first i k st = { st with cmdBuffer := buf, output := o } := by
  intro k
  induction k with
  | zero => intro i st; exact ⟨st.output, st.cmdBuffer, rfl⟩
  | succ k ih =>
      intro i st
      obtain ⟨o, buf, h⟩ := ih (i + 1)
        { st with output := st.output ++ [first.getD i chNul],
                  cmdBuffer := st.cmdBuffer.set i (first.getD i chNul) }
      exact ⟨o, buf, h⟩

theorem listCandidates_shape : ∀ (l : List (CliBinding × Bool)) (st : CliCore),
    ∃ o, listCandidates l st = { st with output := o } := by
  intro l
  induction l with
  | nil => intro st; exact ⟨st.output, rfl⟩
  | cons p rest ih =>
      intro st
      rcases p with ⟨b, f⟩
      show ∃ o, listCandidates rest
        (if f then writeToOutput (writeToOutput st b.name) lineBreak else st) = _
      by_cases hf : f
      · rw [if_pos hf, writeToOutput_eq, writeToOutput_eq]
        obtain ⟨o, h⟩ := ih
          { st with output := (st.output ++ b.name) ++ lineBreak }
        exact ⟨o, h⟩
      · rw [if_neg hf]
        exact ih st

theorem printLive_shape (st : CliCore) :
    ∃ o i fl, printLiveAutocompletion st =
      { st with cmdBuffer := st.cmdBuffer.set st.cmdSize chNul,
                bindingsFlags := fl, output := o, inputLineLength := i } := by
  simp only [printLiveAutocompletion, clearCurrentLine_eq, writeToOutput_eq, emitChar]
  split
  · split
    · exact ⟨_, _, _, rfl⟩
    · exact ⟨_, _, _, rfl⟩
  · exact ⟨_, _, _, rfl⟩

theorem onAutocompleteRequest_shape (st : CliCore) :
    ∃ o i fl buf sz, onAutocompleteRequest st =
      { st with cmdBuffer := buf, cmdSize := sz, bindingsFlags := fl,
                output := o, inputLineLength := i } := by
  simp only [onAutocompleteRequest]
  split
  · exact ⟨_, _, _, _, _, rfl⟩
  · split
    · obtain ⟨o, buf, h⟩ := acWrite_shape _ _ _
        { st with cmdBuffer := st.cmdBuffer.set st.cmdSize chNul,
                  bindingsFlags := (getAutocompletedCommand st.bindings st.bindingsFlags
                    st.cmdSize (readCStr (st.cmdBuffer.set st.cmdSize chNul) 0)).2 }
      rw [h]
      exact ⟨_, _, _, _, _, rfl⟩
    · split
      · rw [clearCurrentLine_eq]
        obtain ⟨o3, h3⟩ := listCandidates_shape _ _
        rw [h3, writeToOutput_eq, writeToOutput_eq]
        exact ⟨_, _, _, _, _, rfl⟩
      · obtain ⟨o, buf, h⟩ := acWrite_shape _ _ _
          { st with cmdBuffer := st.cmdBuffer.set st.cmdSize chNul,
                    bindingsFlags := (getAutocompletedCommand st.bindings st.bindingsFlags
                      st.cmdSize (readCStr (st.cmdBuffer.set st.cmdSize chNul) 0)).2 }
        rw [h]
        exact ⟨_, _, _, _, _, rfl⟩

theorem helpListAll_shape : ∀ (bs : List CliBinding) (st : CliCore),
    ∃ o, helpListAll bs st = { st with output := o } := by
  intro bs
  induction bs with
  | nil => intro st; exact ⟨st.output, rfl⟩
  | cons b rest ih =>
      intro st
      simp only [helpListAll, writeToOutput_eq, emitChar]
      split
      · obtain ⟨o, h⟩ := ih _
        exact ⟨o, h⟩
      · obtain ⟨o, h⟩ := ih _
        exact ⟨o, h⟩

theorem onUnknownCommand_shape (st : CliCore) (nm : List Char) :
    ∃ o, onUnknownCommand st nm =
      { st with output := o,
                dispatched := st.dispatched ++ [CbEvent.unknownCmd nm] } := by
  simp only [onUnknownCommand]
  rw [writeToOutput_eq, writeToOutput_eq, writeToOutput_eq, writeToOutput_eq]
  exact ⟨_, rfl⟩

theorem exists_out_d {st : CliCore} (a : CliCore) (o : List Char)
    (h : a = { st with output := o }) :
    ∃ o2 d, a = { st with output := o2, dispatched := st.dispatched ++ d } :=
  ⟨o, [], by rw [List.append_nil]; exact h⟩

theorem onHelp_shape (st : CliCore) (tokens : Option (List Char)) :
    ∃ o d, onHelp st tokens =
      { st with
          output := o,
          dispatched := st.dispatched ++ d } := by
  simp only [onHelp, writeToOutput_eq, emitChar]
  split
  · exact exists_out_d _ _ rfl
  · split
    · obtain ⟨o, h⟩ := helpListAll_shape st.bindings st
      exact exists_out_d _ o h
    · split
      · split
        · split
          · exact exists_out_d _ _ rfl
          · exact exists_out_d _ _ rfl
        · obtain ⟨o, h⟩ := onUnknownCommand_shape st _
          exact ⟨o, _, h⟩
      · exact exists_out_d _ _ rfl

theorem invokeHandler_shape (st : CliCore) (i : Nat) (b : CliBinding) (nm : List Char)
    (args : Option (List Char)) :
    ∃ o d, invokeHandler st i b nm args =
      { st with output := o, dispatched := st.dispatched ++ d } := by
  simp only [invokeHandler]
  split
  · obtain ⟨o, d, h⟩ := onHelp_shape
      { st with dispatched := st.dispatched ++ [CbEvent.invoke i nm args] } args
    rw [h]
    refine ⟨o, [CbEvent.invoke i nm args] ++ d, ?_⟩
    show ({ st with
        output := o,
        dispatched := (st.dispatched ++ [CbEvent.invoke i nm args]) ++ d } : CliCore) = _
    rw [List.append_assoc]
  · exact ⟨st.output, [CbEvent.invoke i nm args], rfl⟩

theorem parseCommand_shape (st : CliCore) :
    ∃ buf o d, parseCommand st =
      { st with cmdBuffer := buf, output := o, dispatched := st.dispatched ++ d } := by
  simp only [parseCommand]
  split
  · exact ⟨_, st.output, [], by rw [List.append_nil]⟩
  · split
    · split
      · obtain ⟨o, d, h⟩ := invokeHandler_shape
          { st with cmdBuffer := (parseScan st).1 } _ _ _ none
        rw [h]
        exact ⟨_, o, d, rfl⟩
      · split
        · obtain ⟨o, d, h⟩ := invokeHandler_shape _ _ _ _ _
          rw [h]
          exact ⟨_, o, d, rfl⟩
        · obtain ⟨o, d, h⟩ := invokeHandler_shape
            { st with cmdBuffer := (parseScan st).1 } _ _ _ _
          rw [h]
          exact ⟨_, o, d, rfl⟩
    · split
      · exact ⟨_, st.output, _, rfl⟩
      · obtain ⟨o, h⟩ := onUnknownCommand_shape { st with cmdBuffer := (parseScan st).1 } _
        rw [h]
        exact ⟨_, o, _, rfl⟩

/-! ### Event extension: byte processing only appends dispatch events
and leaves the configuration fields alone -/

/-- b extends a: the frame fields agree and the dispatched list of b is
that of a plus a suffix. -/
def Ev (a b : CliCore) : Prop :=
  Frame a b ∧ ∃ d, b.dispatched = a.dispatched ++ d

theorem ev_refl (a : CliCore) : Ev a a :=
  ⟨frame_refl a, [], (List.append_nil _).symm⟩

theorem ev_trans {a b c : CliCore} (h1 : Ev a b) (h2 : Ev b c) : Ev a c := by
  obtain ⟨f1, d1, hd1⟩ := h1
  obtain ⟨f2, d2, hd2⟩ := h2
  exact ⟨frame_trans f1 f2, d1 ++ d2, by rw [hd2, hd1, List.append_assoc]⟩

theorem ev_emitChar (st : CliCore) (c : Char) : Ev st (emitChar st c) :=
  ⟨⟨rfl, rfl, rfl, rfl, rfl, rfl, rfl, rfl, rfl⟩, [], (List.append_nil _).symm⟩

theorem ev_writeToOutput (st : CliCore) (s : List Char) : Ev st (writeToOutput st s) := by
  rw [writeToOutput_eq]
  exact ⟨⟨rfl, rfl, rfl, rfl, rfl, rfl, rfl, rfl, rfl⟩, [], (List.append_nil _).symm⟩

theorem ev_clearCurrentLine (st : CliCore) : Ev st (clearCurrentLine st) := by
  rw [clearCurrentLine_eq]
  exact ⟨⟨rfl, rfl, rfl, rfl, rfl, rfl, rfl, rfl, rfl⟩, [], (List.append_nil _).symm⟩

theorem ev_printLive (st : CliCore) : Ev st (printLiveAutocompletion st) := by
  obtain ⟨o, i, fl, h⟩ := printLive_shape st
  rw [h]
  exact ⟨⟨rfl, rfl, rfl, rfl, rfl, rfl, rfl, rfl, rfl⟩, [], (List.append_nil _).symm⟩

theorem ev_onAutocompleteRequest (st : CliCore) : Ev st (onAutocompleteRequest st) := by
  obtain ⟨o, i, fl, buf, sz, h⟩ := onAutocompleteRequest_shape st
  rw [h]
  exact ⟨⟨rfl, rfl, rfl, rfl, rfl, rfl, rfl, rfl, rfl⟩, [], (List.append_nil _).symm⟩

theorem ev_parseCommand (st : CliCore) : Ev st (parseCommand st) := by
  obtain ⟨buf, o, d, h⟩ := parseCommand_shape st
  rw [h]
  exact ⟨⟨rfl, rfl, rfl, rfl, rfl, rfl, rfl, rfl, rfl⟩, d, rfl⟩

theorem ev_onCharInput (c : Char) (st : CliCore) : Ev st (onCharInput c st) := by
  simp only [onCharInput, emitChar]
  split
  · exact ev_refl st
  · split
    · exact ⟨⟨rfl, rfl, rfl, rfl, rfl, rfl, rfl, rfl, rfl⟩, [], (List.append_nil _).symm⟩
    · exact ⟨⟨rfl, rfl, rfl, rfl, rfl, rfl, rfl, rfl, rfl⟩, [], (List.append_nil _).symm⟩

theorem ev_onEscapedInput (c : Char) (st : CliCore) : Ev st (onEscapedInput c st) := by
  simp only [onEscapedInput]
  split
  · exact ⟨⟨rfl, rfl, rfl, rfl, rfl, rfl, rfl, rfl, rfl⟩, [], (List.append_nil _).symm⟩
  · exact ev_refl st

theorem ev_reset (x : CliCore) : Ev x { x with cmdSize := 0, inputLineLength := 0 } :=
  ⟨⟨rfl, rfl, rfl, rfl, rfl, rfl, rfl, rfl, rfl⟩, [], (List.append_nil _).symm⟩

theorem ev_setSize (x : CliCore) (n : Nat) : Ev x { x with cmdSize := n } :=
  ⟨⟨rfl, rfl, rfl, rfl, rfl, rfl, rfl, rfl, rfl⟩, [], (List.append_nil _).symm⟩

theorem ev_setLast (x : CliCore) (c : Char) : Ev x { x with lastChar := c } :=
  ⟨⟨rfl, rfl, rfl, rfl, rfl, rfl, rfl, rfl, rfl⟩, [], (List.append_nil _).symm⟩

theorem ev_setEsc (x : CliCore) : Ev x { x with escapeMode := true } :=
  ⟨⟨rfl, rfl, rfl, rfl, rfl, rfl, rfl, rfl, rfl⟩, [], (List.append_nil _).symm⟩

theorem ev_onControlInput (c : Char) (st : CliCore) : Ev st (onControlInput c st) := by
  simp only [onControlInput]
  split
  · exact ev_refl st
  · split
    · have h1 : Ev st (writeToOutput st lineBreak) := ev_writeToOutput st lineBreak
      have h2 : Ev (writeToOutput st lineBreak)
          (if 0 < (writeToOutput st lineBreak).cmdSize
           then parseCommand (writeToOutput st lineBreak)
           else writeToOutput st lineBreak) := by
        split
        · exact ev_parseCommand _
        · exact ev_refl _
      exact ev_trans (ev_trans (ev_trans h1 h2) (ev_reset _)) (ev_writeToOutput _ _)
    · split
      · exact ev_trans
          (ev_trans (ev_trans (ev_emitChar st chBs) (ev_emitChar _ ' ')) (ev_emitChar _ chBs))
          (ev_setSize _ _)
      · split
        · exact ev_onAutocompleteRequest st
        · exact ev_refl st

theorem ev_handleByte (c : Char) (st : CliCore) : Ev st (handleByte c st) := by
  simp only [handleByte]
  have h1 : Ev st
      (if st.escapeMode then onEscapedInput c st
       else if st.lastChar = chEsc ∧ c = '[' then { st with escapeMode := true }
       else if isControlChar c then onControlInput c st
       else if isDisplayableChar c then onCharInput c st
       else st) := by
    split
    · exact ev_onEscapedInput c st
    · split
      · exact ev_setEsc st
      · split
        · exact ev_onControlInput c st
        · split
          · exact ev_onCharInput c st
          · exact ev_refl st
  exact ev_trans (ev_trans h1 (ev_printLive _)) (ev_setLast _ c)

theorem ev_processChars (cs : List Char) : ∀ st : CliCore, Ev st (processChars cs st) := by
  induction cs with
  | nil => intro st; exact ev_refl st
  | cons c rest ih =>
      intro st
      exact ev_trans (ev_handleByte c st) (ih (handleByte c st))

theorem processChars_overflow (cs : List Char) (st : CliCore) :
    (processChars cs st).overflow = st.overflow :=
  ((ev_processChars cs st).1.2.2.2.2.2.2.1).symm

theorem processChars_initComplete (cs : List Char) (st : CliCore) :
    (processChars cs st).initComplete = st.initComplete :=
  ((ev_processChars cs st).1.2.2.2.2.2.2.2.1).symm

/-! ### The lazy one-time invitation of embeddedCliProcess -/

/-- The state adjustment embeddedCliProcess performs before draining:
print the invitation once, on the first call. -/
def initAdjust (c : CliCore) : CliCore :=
  if ¬ c.initComplete then writeToOutput { c with initComplete := true } c.invitation else c

theorem initAdjust_eq (c : CliCore) : initAdjust c =
    if ¬ c.initComplete then
      { c with initComplete := true, output := c.output ++ c.invitation }
    else c := by
  unfold initAdjust
  split
  · rw [writeToOutput_eq]
  · rfl

theorem initAdjust_proj (c : CliCore) :
    (initAdjust c).cmdBuffer = c.cmdBuffer ∧ (initAdjust c).cmdSize = c.cmdSize ∧
    (initAdjust c).lastChar = c.lastChar ∧ (initAdjust c).escapeMode = c.escapeMode ∧
    (initAdjust c).bindings = c.bindings ∧ (initAdjust c).cmdMaxSize = c.cmdMaxSize ∧
    (initAdjust c).onCommand = c.onCommand ∧ (initAdjust c).dispatched = c.dispatched ∧
    (initAdjust c).overflow = c.overflow := by
  rw [initAdjust_eq]
  split
  · exact ⟨rfl, rfl, rfl, rfl, rfl, rfl, rfl, rfl, rfl⟩
  · exact ⟨rfl, rfl, rfl, rfl, rfl, rfl, rfl, rfl, rfl⟩

theorem initAdjust_initComplete (c : CliCore) : (initAdjust c).initComplete = true := by
  rw [initAdjust_eq]
  split
  · rfl
  · rename_i h
    exact not_not.mp h

theorem initAdjust_id (c : CliCore) (h : c.initComplete = true) : initAdjust c = c := by
  unfold initAdjust
  rw [if_neg]
  intro hcon
  exact hcon h

/-! ### Composition: receive, drain, process, chunked runs -/

theorem receiveChars_ok : ∀ (cs : List Char) (st : CliState),
    FifoWF st.rxBuffer →
    fifoBufAvailable st.rxBuffer + cs.length < st.rxBuffer.size →
    (receiveChars st cs).core = st.core ∧
      fifoToList (receiveChars st cs).rxBuffer = fifoToList st.rxBuffer ++ cs ∧
      FifoWF (receiveChars st cs).rxBuffer ∧
      (receiveChars st cs).rxBuffer.size = st.rxBuffer.size := by
  intro cs
  induction cs with
  | nil =>
      intro st hwf hlen
      exact ⟨rfl, (List.append_nil _).symm, hwf, rfl⟩
  | cons c rest ih =>
      intro st hwf hlen
      simp only [List.length_cons] at hlen
      have hnf : fifoBufAvailable st.rxBuffer < st.rxBuffer.size - 1 := by omega
      obtain ⟨hok, hq, hwf2, hsz2, hfr2⟩ := fifoBufPush_ok st.rxBuffer hwf hnf c
      have hstep : embeddedCliReceiveChar st c =
          { st with rxBuffer := (fifoBufPush st.rxBuffer c).1 } := by
        simp [embeddedCliReceiveChar, hok]
      have havail2 : fifoBufAvailable (fifoBufPush st.rxBuffer c).1 =
          fifoBufAvailable st.rxBuffer + 1 := by
        have h1 := fifoToList_length (fifoBufPush st.rxBuffer c).1
        have h2 := fifoToList_length st.rxBuffer
        rw [hq, List.length_append, h2, List.length_singleton] at h1
        omega
      obtain ⟨g1, g2, g3, g4⟩ := ih { st with rxBuffer := (fifoBufPush st.rxBuffer c).1 }
        hwf2 (by show fifoBufAvailable (fifoBufPush st.rxBuffer c).1 + rest.length <
                  (fifoBufPush st.rxBuffer c).1.size
                 rw [havail2, hsz2]; omega)
      have hfold : receiveChars st (c :: rest) = receiveChars (embeddedCliReceiveChar st c) rest :=
        rfl
      rw [hfold, hstep]
      refine ⟨g1, ?_, g3, by rw [g4]; exact hsz2⟩
      rw [g2]
      show fifoToList (fifoBufPush st.rxBuffer c).1 ++ rest = fifoToList st.rxBuffer ++ c :: rest
      rw [hq, List.append_assoc]
      rfl

theorem drainLoop_eq : ∀ (fuel : Nat) (st : CliState),
    FifoWF st.rxBuffer → fifoBufAvailable st.rxBuffer ≤ fuel →
    (drainLoop fuel st).core = processChars (fifoToList st.rxBuffer) st.core ∧
      FifoWF (drainLoop fuel st).rxBuffer ∧
      (drainLoop fuel st).rxBuffer.front = (drainLoop fuel st).rxBuffer.back ∧
      (drainLoop fuel st).rxBuffer.size = st.rxBuffer.size := by
  intro fuel
  induction fuel with
  | zero =>
      intro st hwf hle
      have hav : fifoBufAvailable st.rxBuffer = 0 := by omega
      have hq : fifoToList st.rxBuffer = [] := by
        have h1 := fifoToList_length st.rxBuffer
        rw [hav] at h1
        exact List.length_eq_zero.mp h1
      exact ⟨by rw [hq]; rfl, hwf, (fifo_front_eq_back_iff st.rxBuffer hwf).mpr hav, rfl⟩
  | succ n ih =>
      intro st hwf hle
      by_cases hav : fifoBufAvailable st.rxBuffer = 0
      · have hq : fifoToList st.rxBuffer = [] := by
          have h1 := fifoToList_length st.rxBuffer
          rw [hav] at h1
          exact List.length_eq_zero.mp h1
        simp only [drainLoop]
        rw [if_neg (by omega)]
        exact ⟨by rw [hq]; rfl, hwf, (fifo_front_eq_back_iff st.rxBuffer hwf).mpr hav, rfl⟩
      · obtain ⟨c, rest, hq⟩ : ∃ c rest, fifoToList st.rxBuffer = c :: rest := by
          cases hq0 : fifoToList st.rxBuffer with
          | nil =>
              exfalso
              have h1 := fifoToList_length st.rxBuffer
              rw [hq0] at h1
              simp at h1
              omega
          | cons c rest => exact ⟨c, rest, rfl⟩
        obtain ⟨hpc, hpq, hpwf, hpsz, hpbuf, hpback⟩ := fifoBufPop_queue st.rxBuffer hwf c rest hq
        simp only [drainLoop]
        rw [if_pos hav]
        have hrest_le : fifoBufAvailable (fifoBufPop st.rxBuffer).2 ≤ n := by
          have h1 := fifoToList_length (fifoBufPop st.rxBuffer).2
          have h2 := fifoToList_length st.rxBuffer
          rw [hpq] at h1
          rw [hq] at h2
          simp only [List.length_cons] at h2
          omega
        obtain ⟨g1, g2, g3, g4⟩ := ih
          { core := handleByte (fifoBufPop st.rxBuffer).1 st.core,
            rxBuffer := (fifoBufPop st.rxBuffer).2 } hpwf hrest_le
        refine ⟨?_, g2, g3, by rw [g4]; exact hpsz⟩
        rw [g1]
        show processChars (fifoToList (fifoBufPop st.rxBuffer).2)
            (handleByte (fifoBufPop st.rxBuffer).1 st.core) = _
        rw [hpq, hpc, hq]
        rfl

theorem embeddedCliProcess_eq (st : CliState)
    (hwf : FifoWF st.rxBuffer) (hover : st.core.overflow = false) :
    (embeddedCliProcess st).core =
        processChars (fifoToList st.rxBuffer) (initAdjust st.core) ∧
      FifoWF (embeddedCliProcess st).rxBuffer ∧
      (embeddedCliProcess st).rxBuffer.front = (embeddedCliProcess st).rxBuffer.back ∧
      (embeddedCliProcess st).rxBuffer.size = st.rxBuffer.size := by
  simp only [embeddedCliProcess]
  have hst0 : (if ¬ st.core.initComplete then
      { st with core := writeToOutput { st.core with initComplete := true } st.core.invitation }
      else st) = { core := initAdjust st.core, rxBuffer := st.rxBuffer } := by
    unfold initAdjust
    split
    · rfl
    · rfl
  rw [hst0]
  obtain ⟨g1, g2, g3, g4⟩ := drainLoop_eq st.rxBuffer.size
    { core := initAdjust st.core, rxBuffer := st.rxBuffer } hwf
    (Nat.le_of_lt (fifoAvail_lt st.rxBuffer hwf))
  have hov1 : (drainLoop st.rxBuffer.size
      { core := initAdjust st.core, rxBuffer := st.rxBuffer }).core.overflow = false := by
    rw [g1, processChars_overflow, (initAdjust_proj st.core).2.2.2.2.2.2.2.2]
    exact hover
  rw [if_neg (by rw [hov1]; exact Bool.false_ne_true)]
  exact ⟨g1, g2, g3, g4⟩

theorem runChunk_eq (st : CliState) (cs : List Char)
    (hwf : FifoWF st.rxBuffer) (hempty : st.rxBuffer.front = st.rxBuffer.back)
    (hlen : cs.length < st.rxBuffer.size) (hover : st.core.overflow = false) :
    (runChunk st cs).core = processChars cs (initAdjust st.core) ∧
      FifoWF (runChunk st cs).rxBuffer ∧
      (runChunk st cs).rxBuffer.front = (runChunk st cs).rxBuffer.back ∧
      (runChunk st cs).rxBuffer.size = st.rxBuffer.size ∧
      (runChunk st cs).core.overflow = false ∧
      (runChunk st cs).core.initComplete = true := by
  have hav0 : fifoBufAvailable st.rxBuffer = 0 := (fifo_front_eq_back_iff _ hwf).mp hempty
  obtain ⟨r1, r2, r3, r4⟩ := receiveChars_ok cs st hwf (by omega)
  have hq0 : fifoToList st.rxBuffer = [] := by
    have h1 := fifoToList_length st.rxBuffer
    rw [hav0] at h1
    exact List.length_eq_zero.mp h1
  rw [hq0] at r2
  simp only [List.nil_append] at r2
  obtain ⟨p1, p2, p3, p4⟩ := embeddedCliProcess_eq (receiveChars st cs) r3
    (by rw [r1]; exact hover)
  have hcore : (runChunk st cs).core = processChars cs (initAdjust st.core) := by
    show (embeddedCliProcess (receiveChars st cs)).core = _
    rw [p1, r2, r1]
  refine ⟨hcore, p2, p3, by show (embeddedCliProcess (receiveChars st cs)).rxBuffer.size = _
                            rw [p4]; exact r4, ?_, ?_⟩
  · rw [hcore, processChars_overflow, (initAdjust_proj st.core).2.2.2.2.2.2.2.2]
    exact hover
  · rw [hcore, processChars_initComplete, initAdjust_initComplete]

theorem processChars_append_eq (a b : List Char) (st : CliCore) :
    processChars (a ++ b) st = processChars b (processChars a st) :=
  List.foldl_append _ _ _ _

theorem runChunks_eq : ∀ (chunks : List (List Char)) (st : CliState),
    FifoWF st.rxBuffer → st.rxBuffer.front = st.rxBuffer.back →
    st.core.overflow = false →
    (∀ c ∈ chunks, c.length < st.rxBuffer.size) → chunks ≠ [] →
    (runChunks st chunks).core = processChars chunks.flatten (initAdjust st.core) ∧
      FifoWF (runChunks st chunks).rxBuffer ∧
      (runChunks st chunks).rxBuffer.front = (runChunks st chunks).rxBuffer.back ∧
      (runChunks st chunks).rxBuffer.size = st.rxBuffer.size ∧
      (runChunks st chunks).core.overflow = false ∧
      (runChunks st chunks).core.initComplete = true := by
  intro chunks
  induction chunks with
  | nil => intro st _ _ _ _ hne; exact absurd rfl hne
  | cons c rest ih =>
      intro st hwf hempty hover hlen _
      obtain ⟨q1, q2, q3, q4, q5, q6⟩ := runChunk_eq st c hwf hempty
        (hlen c (List.mem_cons_self c rest)) hover
      by_cases hrest : rest = []
      · subst hrest
        have hfold : runChunks st [c] = runChunk st c := rfl
        have hflat : ([c] : List (List Char)).flatten = c := by
          simp
        rw [hfold, hflat]
        exact ⟨q1, q2, q3, q4, q5, q6⟩
      · obtain ⟨g1, g2, g3, g4, g5, g6⟩ := ih (runChunk st c) q2 q3 q5
          (fun d hd => by rw [q4]; exact hlen d (List.mem_cons_of_mem c hd)) hrest
        have hfold : runChunks st (c :: rest) = runChunks (runChunk st c) rest := rfl
        rw [hfold]
        rw [initAdjust_id (runChunk st c).core q6, q1] at g1
        refine ⟨?_, g2, g3, by rw [g4]; exact q4, g5, g6⟩
        rw [g1, List.flatten_cons, processChars_append_eq]


/-! ### C1: end-to-end dispatch of a whole line, in one or many chunks -/

/-- C1: Delivering the bytes of "set led 1 7" followed by a single line
terminator to a fresh default CLI - in one chunk or fragmented into any
sequence of processing calls whose chunks each fit the 64-byte receive
buffer - dispatches exactly one command, with name "set" and the
untokenized argument string "led 1 7"; and after any prefix of the
chunk sequence that does not yet contain the terminator byte, nothing
has been dispatched. -/
theorem c1_single_dispatch (chunks : List (List Char)) (term : Char)
    (hterm : term = '\r' ∨ term = '\n')
    (hjoin : chunks.flatten = "set led 1 7".toList ++ [term])
    (hsz : ∀ c ∈ chunks, c.length < 64) :
    (runChunks (defaultCliState true) chunks).core.dispatched =
      [CbEvent.defaultCmd ("set".toList) (some ("led 1 7".toList))] ∧
    ∀ k, ((chunks.take k).flatten).length < 12 →
      (runChunks (defaultCliState true) (chunks.take k)).core.dispatched = [] := by
  have hwf : FifoWF (defaultCliState true).rxBuffer := by decide
  have hempty : (defaultCliState true).rxBuffer.front = (defaultCliState true).rxBuffer.back := by
    decide
  have hover : (defaultCliState true).core.overflow = false := by decide
  have hsz64 : (defaultCliState true).rxBuffer.size = 64 := by decide
  have hne : chunks ≠ [] := by
    intro h
    have hl : (([] : List (List Char)).flatten).length =
        ("set led 1 7".toList ++ [term]).length := by rw [← h, hjoin]
    simp at hl
  have hall : ∀ n, n < 12 → (processChars ("set led 1 7".toList.take n)
      (initAdjust (defaultCliState true).core)).dispatched = [] := by decide
  obtain ⟨m1, _, _, _, _, _⟩ := runChunks_eq chunks (defaultCliState true) hwf hempty hover
    (fun c hc => by rw [hsz64]; exact hsz c hc) hne
  refine ⟨?_, ?_⟩
  · rw [m1, hjoin]
    rcases hterm with h | h
    · subst h
      decide
    · subst h
      decide
  · intro k hk
    by_cases hk0 : chunks.take k = []
    · rw [hk0]
      decide
    · have hpre : (chunks.take k).flatten <+: chunks.flatten :=
        ⟨(chunks.drop k).flatten, by rw [← List.flatten_append, List.take_append_drop]⟩
      rw [hjoin] at hpre
      have heq := List.prefix_iff_eq_take.mp hpre
      rw [List.take_append_of_le_length (by
        have h11 : ("set led 1 7".toList).length = 11 := by decide
        omega)] at heq
      obtain ⟨p1, _, _, _, _, _⟩ := runChunks_eq (chunks.take k) (defaultCliState true)
        hwf hempty hover
        (fun c hc => by rw [hsz64]; exact hsz c (List.take_subset k chunks hc)) hk0
      rw [p1, heq]
      exact hall _ hk

/-- Witness for C1: the fragmented delivery "set ", "led ", "1 7" plus
carriage return dispatches exactly the one expected command, and after
the first two chunks nothing has been dispatched. -/
theorem c1_witness :
    (runChunks (defaultCliState true)
        ["set ".toList, "led ".toList, "1 7".toList ++ ['\r']]).core.dispatched =
      [CbEvent.defaultCmd ("set".toList) (some ("led 1 7".toList))] ∧
    (runChunks (defaultCliState true)
        (["set ".toList, "led ".toList, "1 7".toList ++ ['\r']].take 2)).core.dispatched = [] := by
  have h := c1_single_dispatch ["set ".toList, "led ".toList, "1 7".toList ++ ['\r']] '\r'
    (Or.inl rfl) (by decide) (by decide)
  exact ⟨h.1, h.2 2 (by decide)⟩

/-! ### The command-state projection: the fields of the engine that feed
back into dispatch decisions, and a reduced step function on them.
Echo output, the rendered line length and the transient autocomplete
flags never influence dispatch, the command buffer or the command size,
which the projected machine makes explicit. -/

/-- The dispatch-relevant mutable state of the engine. -/
structure CmdSt where
  buf : List Char
  sz : Nat
  lastC : Char
  esc : Bool
  ev : List CbEvent
  deriving Repr, DecidableEq

/-- Project a core state onto its dispatch-relevant fields. -/
def projC (st : CliCore) : CmdSt :=
  ⟨st.cmdBuffer, st.cmdSize, st.lastChar, st.escapeMode, st.dispatched⟩

/-- parseScan as a function of the buffer and size only. -/
def parseScanC (buf : List Char) (sz : Nat) : List Char × Option Nat × Option Nat :=
  let r := parseScanLoop sz 0 buf none none false
  ((r.1.set sz chNul).set (sz + 1) chNul, r.2.1, r.2.2)

/-- The dispatch events onHelp produces (an unknown-command notice when
a one-token argument names no binding; nothing otherwise). -/
def helpEvC (bindings : List CliBinding) (tokens : Option (List Char)) : List CbEvent :=
  if bindings = [] then []
  else
    let tc := match tokens with
      | none => 0
      | some ts => embeddedCliGetTokenCount ts
    if tc = 0 then []
    else if tc = 1 then
      let cmdName := (embeddedCliGetToken (tokens.getD []) 1).getD []
      match bindings.find? (fun b => b.name = cmdName) with
      | some _ => []
      | none => [CbEvent.unknownCmd cmdName]
    else []

/-- The dispatch events of invokeHandler: the invocation itself plus, for
the internal help handler, whatever onHelp reports. -/
def invokeEvC (bindings : List CliBinding) (i : Nat) (b : CliBinding) (nm : List Char)
    (args : Option (List Char)) : List CbEvent :=
  CbEvent.invoke i nm args ::
    (match b.binding with
     | some CliHandler.helpH => helpEvC bindings args
     | _ => [])

/-- parseCommand reduced to its effect on the command buffer and the
dispatch-event list. -/
def parseCommandC (bindings : List CliBinding) (onCmd : Bool) (buf : List Char) (sz : Nat) :
    List Char × List CbEvent :=
  match (parseScanC buf sz).2.1 with
  | none => ((parseScanC buf sz).1, [])
  | some ni =>
      match findBinding bindings (readCStr (parseScanC buf sz).1 ni) 0 with
      | FindRes.invokeAt i b =>
          match (parseScanC buf sz).2.2 with
          | none =>
              ((parseScanC buf sz).1,
               invokeEvC bindings i b (readCStr (parseScanC buf sz).1 ni) none)
          | some ai =>
              if b.tokenizeArgs then
                (writeAt (parseScanC buf sz).1 ai
                   (embeddedCliTokenizeArgs (readCStr (parseScanC buf sz).1 ai)),
                 invokeEvC bindings i b (readCStr (parseScanC buf sz).1 ni)
                   (some (embeddedCliTokenizeArgs (readCStr (parseScanC buf sz).1 ai))))
              else
                ((parseScanC buf sz).1,
                 invokeEvC bindings i b (readCStr (parseScanC buf sz).1 ni)
                   (some (readCStr (parseScanC buf sz).1 ai)))
      | _ =>
          if onCmd then
            ((parseScanC buf sz).1,
             [CbEvent.defaultCmd (readCStr (parseScanC buf sz).1 ni)
                (((parseScanC buf sz).2.2).map (readCStr (parseScanC buf sz).1))])
          else
            ((parseScanC buf sz).1, [CbEvent.unknownCmd (readCStr (parseScanC buf sz).1 ni)])

/-- The buffer writes of the completion-commit loop. -/
def acWriteC (first : List Char) : Nat → Nat → List Char → List Char
  | _, 0, buf => buf
  | i, k + 1, buf => acWriteC first (i + 1) k (buf.set i (first.getD i chNul))

/-- onAutocompleteRequest reduced to its effect on the command buffer
and size. -/
def tabC (bindings : List CliBinding) (s : CmdSt) : CmdSt :=
  let buf := s.buf.set s.sz chNul
  let cmd := (getAutocompletedCommand bindings [] s.sz (readCStr buf 0)).1
  if cmd.candidateCount = 0 then { s with buf := buf }
  else if cmd.candidateCount = 1 then
    let first := cmd.firstCandidate.getD []
    { s with
        buf := (acWriteC first s.sz (cmd.autocompletedLen - s.sz) buf).set
          cmd.autocompletedLen ' ',
        sz := cmd.autocompletedLen + 1 }
  else
    if cmd.autocompletedLen = s.sz then { s with buf := buf.set s.sz chNul }
    else
      let first := cmd.firstCandidate.getD []
      { s with buf := acWriteC first s.sz (cmd.autocompletedLen - s.sz) buf,
               sz := cmd.autocompletedLen }

/-- onControlInput reduced to the dispatch-relevant fields. -/
def ctrlC (bindings : List CliBinding) (onCmd : Bool) (c : Char) (s : CmdSt) : CmdSt :=
  if (s.lastC = '\r' ∧ c = '\n') ∨ (s.lastC = '\n' ∧ c = '\r') then s
  else if c = '\r' ∨ c = '\n' then
    if 0 < s.sz then
      { s with buf := (parseCommandC bindings onCmd s.buf s.sz).1,
               ev := s.ev ++ (parseCommandC bindings onCmd s.buf s.sz).2, sz := 0 }
    else { s with sz := 0 }
  else if (c = chBs ∨ c = chDel) ∧ 0 < s.sz then { s with sz := s.sz - 1 }
  else if c = '\t' then tabC bindings s
  else s

/-- handleByte reduced to the dispatch-relevant fields (the trailing
buffer write models printLiveAutocompletion placing the terminator). -/
def stepC (bindings : List CliBinding) (M : Nat) (onCmd : Bool) (c : Char) (s : CmdSt) : CmdSt :=
  let s1 :=
    if s.esc then (if 64 ≤ c.toNat ∧ c.toNat ≤ 126 then { s with esc := false } else s)
    else if s.lastC = chEsc ∧ c = '[' then { s with esc := true }
    else if isControlChar c then ctrlC bindings onCmd c s
    else if isDisplayableChar c then
      (if M ≤ s.sz + 2 then s else { s with buf := s.buf.set s.sz c, sz := s.sz + 1 })
    else s
  { s1 with buf := s1.buf.set s1.sz chNul, lastC := c }

/-- Run the reduced machine over a byte list. -/
def runC (bindings : List CliBinding) (M : Nat) (onCmd : Bool) (cs : List Char) (s : CmdSt) :
    CmdSt :=
  cs.foldl (fun s c => stepC bindings M onCmd c s) s

/-! ### Projection lemmas: output-side helpers do not touch the
dispatch-relevant fields -/

theorem writeToOutput_cmdBuffer (st : CliCore) (s : List Char) :
    (writeToOutput st s).cmdBuffer = st.cmdBuffer := by rw [writeToOutput_eq]

theorem writeToOutput_cmdSize (st : CliCore) (s : List Char) :
    (writeToOutput st s).cmdSize = st.cmdSize := by rw [writeToOutput_eq]

theorem writeToOutput_lastChar (st : CliCore) (s : List Char) :
    (writeToOutput st s).lastChar = st.lastChar := by rw [writeToOutput_eq]

theorem writeToOutput_escapeMode (st : CliCore) (s : List Char) :
    (writeToOutput st s).escapeMode = st.escapeMode := by rw [writeToOutput_eq]

theorem writeToOutput_dispatched (st : CliCore) (s : List Char) :
    (writeToOutput st s).dispatched = st.dispatched := by rw [writeToOutput_eq]

theorem writeToOutput_bindings (st : CliCore) (s : List Char) :
    (writeToOutput st s).bindings = st.bindings := by rw [writeToOutput_eq]

theorem writeToOutput_onCommand (st : CliCore) (s : List Char) :
    (writeToOutput st s).onCommand = st.onCommand := by rw [writeToOutput_eq]

theorem writeToOutput_cmdMaxSize (st : CliCore) (s : List Char) :
    (writeToOutput st s).cmdMaxSize = st.cmdMaxSize := by rw [writeToOutput_eq]

theorem writeToOutput_hasWriteChar (st : CliCore) (s : List Char) :
    (writeToOutput st s).hasWriteChar = st.hasWriteChar := by rw [writeToOutput_eq]

theorem writeToOutput_invitation (st : CliCore) (s : List Char) :
    (writeToOutput st s).invitation = st.invitation := by rw [writeToOutput_eq]

theorem clearCurrentLine_cmdBuffer (st : CliCore) :
    (clearCurrentLine st).cmdBuffer = st.cmdBuffer := by rw [clearCurrentLine_eq]

theorem clearCurrentLine_cmdSize (st : CliCore) :
    (clearCurrentLine st).cmdSize = st.cmdSize := by rw [clearCurrentLine_eq]

theorem clearCurrentLine_lastChar (st : CliCore) :
    (clearCurrentLine st).lastChar = st.lastChar := by rw [clearCurrentLine_eq]

theorem clearCurrentLine_escapeMode (st : CliCore) :
    (clearCurrentLine st).escapeMode = st.escapeMode := by rw [clearCurrentLine_eq]

theorem clearCurrentLine_dispatched (st : CliCore) :
    (clearCurrentLine st).dispatched = st.dispatched := by rw [clearCurrentLine_eq]

theorem clearCurrentLine_bindings (st : CliCore) :
    (clearCurrentLine st).bindings = st.bindings := by rw [clearCurrentLine_eq]

theorem clearCurrentLine_bindingsFlags (st : CliCore) :
    (clearCurrentLine st).bindingsFlags = st.bindingsFlags := by rw [clearCurrentLine_eq]

theorem clearCurrentLine_invitation (st : CliCore) :
    (clearCurrentLine st).invitation = st.invitation := by rw [clearCurrentLine_eq]

theorem listCandidates_cmdBuffer (l : List (CliBinding × Bool)) (st : CliCore) :
    (listCandidates l st).cmdBuffer = st.cmdBuffer := by
  obtain ⟨o, h⟩ := listCandidates_shape l st
  rw [h]

theorem listCandidates_cmdSize (l : List (CliBinding × Bool)) (st : CliCore) :
    (listCandidates l st).cmdSize = st.cmdSize := by
  obtain ⟨o, h⟩ := listCandidates_shape l st
  rw [h]

theorem listCandidates_lastChar (l : List (CliBinding × Bool)) (st : CliCore) :
    (listCandidates l st).lastChar = st.lastChar := by
  obtain ⟨o, h⟩ := listCandidates_shape l st
  rw [h]

theorem listCandidates_escapeMode (l : List (CliBinding × Bool)) (st : CliCore) :
    (listCandidates l st).escapeMode = st.escapeMode := by
  obtain ⟨o, h⟩ := listCandidates_shape l st
  rw [h]

theorem listCandidates_dispatched (l : List (CliBinding × Bool)) (st : CliCore) :
    (listCandidates l st).dispatched = st.dispatched := by
  obtain ⟨o, h⟩ := listCandidates_shape l st
  rw [h]

theorem listCandidates_invitation (l : List (CliBinding × Bool)) (st : CliCore) :
    (listCandidates l st).invitation = st.invitation := by
  obtain ⟨o, h⟩ := listCandidates_shape l st
  rw [h]

theorem printLive_cmdBuffer (st : CliCore) :
    (printLiveAutocompletion st).cmdBuffer = st.cmdBuffer.set st.cmdSize chNul := by
  obtain ⟨o, i, fl, h⟩ := printLive_shape st
  rw [h]

theorem printLive_cmdSize (st : CliCore) :
    (printLiveAutocompletion st).cmdSize = st.cmdSize := by
  obtain ⟨o, i, fl, h⟩ := printLive_shape st
  rw [h]

theorem printLive_lastChar (st : CliCore) :
    (printLiveAutocompletion st).lastChar = st.lastChar := by
  obtain ⟨o, i, fl, h⟩ := printLive_shape st
  rw [h]

theorem printLive_escapeMode (st : CliCore) :
    (printLiveAutocompletion st).escapeMode = st.escapeMode := by
  obtain ⟨o, i, fl, h⟩ := printLive_shape st
  rw [h]

theorem printLive_dispatched (st : CliCore) :
    (printLiveAutocompletion st).dispatched = st.dispatched := by
  obtain ⟨o, i, fl, h⟩ := printLive_shape st
  rw [h]

theorem onUnknownCommand_cmdBuffer (st : CliCore) (nm : List Char) :
    (onUnknownCommand st nm).cmdBuffer = st.cmdBuffer := by
  obtain ⟨o, h⟩ := onUnknownCommand_shape st nm
  rw [h]

theorem onUnknownCommand_cmdSize (st : CliCore) (nm : List Char) :
    (onUnknownCommand st nm).cmdSize = st.cmdSize := by
  obtain ⟨o, h⟩ := onUnknownCommand_shape st nm
  rw [h]

theorem onUnknownCommand_lastChar (st : CliCore) (nm : List Char) :
    (onUnknownCommand st nm).lastChar = st.lastChar := by
  obtain ⟨o, h⟩ := onUnknownCommand_shape st nm
  rw [h]

theorem onUnknownCommand_escapeMode (st : CliCore) (nm : List Char) :
    (onUnknownCommand st nm).escapeMode = st.escapeMode := by
  obtain ⟨o, h⟩ := onUnknownCommand_shape st nm
  rw [h]

theorem onUnknownCommand_dispatched2 (st : CliCore) (nm : List Char) :
    (onUnknownCommand st nm).dispatched = st.dispatched ++ [CbEvent.unknownCmd nm] := by
  obtain ⟨o, h⟩ := onUnknownCommand_shape st nm
  rw [h]

theorem helpListAll_cmdBuffer (bs : List CliBinding) (st : CliCore) :
    (helpListAll bs st).cmdBuffer = st.cmdBuffer := by
  obtain ⟨o, h⟩ := helpListAll_shape bs st
  rw [h]

theorem helpListAll_cmdSize (bs : List CliBinding) (st : CliCore) :
    (helpListAll bs st).cmdSize = st.cmdSize := by
  obtain ⟨o, h⟩ := helpListAll_shape bs st
  rw [h]

theorem helpListAll_lastChar (bs : List CliBinding) (st : CliCore) :
    (helpListAll bs st).lastChar = st.lastChar := by
  obtain ⟨o, h⟩ := helpListAll_shape bs st
  rw [h]

theorem helpListAll_escapeMode (bs : List CliBinding) (st : CliCore) :
    (helpListAll bs st).escapeMode = st.escapeMode := by
  obtain ⟨o, h⟩ := helpListAll_shape bs st
  rw [h]

theorem helpListAll_dispatched (bs : List CliBinding) (st : CliCore) :
    (helpListAll bs st).dispatched = st.dispatched := by
  obtain ⟨o, h⟩ := helpListAll_shape bs st
  rw [h]

/-- The autocompletion result record does not depend on the incoming
flag table. -/
theorem getAC_fst (bs : List CliBinding) (fl fl2 : List Bool) (sz : Nat) (p : List Char) :
    (getAutocompletedCommand bs fl sz p).1 = (getAutocompletedCommand bs fl2 sz p).1 := by
  unfold getAutocompletedCommand
  by_cases h : bs = [] ∨ p.length = 0
  · rw [if_pos h, if_pos h]
  · rw [if_neg h, if_neg h]

/-! ### Simulation: byte processing refines the reduced machine -/

theorem acWrite_proj (first : List Char) : ∀ (k i : Nat) (x : CliCore),
    (acWrite first i k x).cmdBuffer = acWriteC first i k x.cmdBuffer ∧
    (acWrite first i k x).cmdSize = x.cmdSize ∧
    (acWrite first i k x).lastChar = x.lastChar ∧
    (acWrite first i k x).escapeMode = x.escapeMode ∧
    (acWrite first i k x).dispatched = x.dispatched := by
  intro k
  induction k with
  | zero => intro i x; exact ⟨rfl, rfl, rfl, rfl, rfl⟩
  | succ k ih =>
      intro i x
      exact ih (i + 1)
        { emitChar x (first.getD i chNul) with
          cmdBuffer := (emitChar x (first.getD i chNul)).cmdBuffer.set i (first.getD i chNul) }

theorem onHelp_ev (x : CliCore) (tokens : Option (List Char)) :
    (onHelp x tokens).cmdBuffer = x.cmdBuffer ∧ (onHelp x tokens).cmdSize = x.cmdSize ∧
    (onHelp x tokens).lastChar = x.lastChar ∧ (onHelp x tokens).escapeMode = x.escapeMode ∧
    (onHelp x tokens).dispatched = x.dispatched ++ helpEvC x.bindings tokens := by
  by_cases h1 : x.bindings = []
  · simp [onHelp, helpEvC, h1, writeToOutput_eq]
  · rcases tokens with _ | ts
    · simp [onHelp, helpEvC, h1, helpListAll_cmdBuffer, helpListAll_cmdSize,
        helpListAll_lastChar, helpListAll_escapeMode, helpListAll_dispatched]
    · by_cases h2 : embeddedCliGetTokenCount ts = 0
      · simp [onHelp, helpEvC, h1, h2, helpListAll_cmdBuffer, helpListAll_cmdSize,
          helpListAll_lastChar, helpListAll_escapeMode, helpListAll_dispatched]
      · by_cases h3 : embeddedCliGetTokenCount ts = 1
        · rcases hf : x.bindings.find?
              (fun b => b.name = (embeddedCliGetToken ts 1).getD []) with _ | b
          · simp [onHelp, helpEvC, h1, h2, h3, hf, onUnknownCommand_cmdBuffer,
              onUnknownCommand_cmdSize, onUnknownCommand_lastChar,
              onUnknownCommand_escapeMode, onUnknownCommand_dispatched2]
          · rcases hh : b.help with _ | hs
            · simp [onHelp, helpEvC, h1, h2, h3, hf, hh, writeToOutput_eq]
            · simp [onHelp, helpEvC, h1, h2, h3, hf, hh, writeToOutput_eq, emitChar]
        · simp [onHelp, helpEvC, h1, h2, h3, writeToOutput_eq]

theorem invokeHandler_ev (x : CliCore) (i : Nat) (b : CliBinding) (nm : List Char)
    (args : Option (List Char)) :
    (invokeHandler x i b nm args).cmdBuffer = x.cmdBuffer ∧
    (invokeHandler x i b nm args).cmdSize = x.cmdSize ∧
    (invokeHandler x i b nm args).lastChar = x.lastChar ∧
    (invokeHandler x i b nm args).escapeMode = x.escapeMode ∧
    (invokeHandler x i b nm args).dispatched =
      x.dispatched ++ invokeEvC x.bindings i b nm args := by
  rcases hb : b.binding with _ | h
  · simp [invokeHandler, invokeEvC, hb]
  · cases h with
    | helpH =>
        obtain ⟨c1, c2, c3, c4, c5⟩ := onHelp_ev
          { x with dispatched := x.dispatched ++ [CbEvent.invoke i nm args] } args
        simp only [invokeHandler, invokeEvC, hb]
        refine ⟨c1, c2, c3, c4, ?_⟩
        rw [c5]
        show (x.dispatched ++ [CbEvent.invoke i nm args]) ++ helpEvC x.bindings args = _
        rw [List.append_assoc]
        rfl
    | extH id => simp [invokeHandler, invokeEvC, hb]

theorem parseCommand_proj (x : CliCore) :
    (parseCommand x).cmdBuffer = (parseCommandC x.bindings x.onCommand x.cmdBuffer x.cmdSize).1 ∧
    (parseCommand x).cmdSize = x.cmdSize ∧
    (parseCommand x).lastChar = x.lastChar ∧
    (parseCommand x).escapeMode = x.escapeMode ∧
    (parseCommand x).dispatched =
      x.dispatched ++ (parseCommandC x.bindings x.onCommand x.cmdBuffer x.cmdSize).2 := by
  have hP : parseScanC x.cmdBuffer x.cmdSize = parseScan x := rfl
  rcases hni : (parseScan x).2.1 with _ | ni
  · simp [parseCommand, parseCommandC, hP, hni]
  · cases hf : findBinding x.bindings (readCStr (parseScan x).1 ni) 0 with
    | invokeAt i b =>
        rcases hai : (parseScan x).2.2 with _ | ai
        · obtain ⟨c1, c2, c3, c4, c5⟩ := invokeHandler_ev
            { x with cmdBuffer := (parseScan x).1 } i b (readCStr (parseScan x).1 ni) none
          simp [parseCommand, parseCommandC, hP, hni, hf, hai, c1, c2, c3, c4, c5]
        · by_cases ht : b.tokenizeArgs
          · obtain ⟨c1, c2, c3, c4, c5⟩ := invokeHandler_ev
              { x with cmdBuffer := writeAt (parseScan x).1 ai (embeddedCliTokenizeArgs (readCStr (parseScan x).1 ai)) }
              i b (readCStr (parseScan x).1 ni)
              (some (embeddedCliTokenizeArgs (readCStr (parseScan x).1 ai)))
            simp [parseCommand, parseCommandC, hP, hni, hf, hai, ht, c1, c2, c3, c4, c5]
          · obtain ⟨c1, c2, c3, c4, c5⟩ := invokeHandler_ev
              { x with cmdBuffer := (parseScan x).1 } i b (readCStr (parseScan x).1 ni)
              (some (readCStr (parseScan x).1 ai))
            simp [parseCommand, parseCommandC, hP, hni, hf, hai, ht, c1, c2, c3, c4, c5]
    | stopNull =>
        by_cases ho : x.onCommand = true
        · simp [parseCommand, parseCommandC, hP, hni, hf, ho]
        · simp [parseCommand, parseCommandC, hP, hni, hf, ho, onUnknownCommand_cmdBuffer,
            onUnknownCommand_cmdSize, onUnknownCommand_lastChar,
            onUnknownCommand_escapeMode, onUnknownCommand_dispatched2]
    | noMatch =>
        by_cases ho : x.onCommand = true
        · simp [parseCommand, parseCommandC, hP, hni, hf, ho]
        · simp [parseCommand, parseCommandC, hP, hni, hf, ho, onUnknownCommand_cmdBuffer,
            onUnknownCommand_cmdSize, onUnknownCommand_lastChar,
            onUnknownCommand_escapeMode, onUnknownCommand_dispatched2]

theorem onAutocompleteRequest_proj (x : CliCore) :
    projC (onAutocompleteRequest x) = tabC x.bindings (projC x) := by
  have hfst := getAC_fst x.bindings [] x.bindingsFlags x.cmdSize
    (readCStr (x.cmdBuffer.set x.cmdSize chNul) 0)
  by_cases h0 : (getAutocompletedCommand x.bindings x.bindingsFlags x.cmdSize
      (readCStr (x.cmdBuffer.set x.cmdSize chNul) 0)).1.candidateCount = 0
  · simp [onAutocompleteRequest, tabC, projC, hfst, h0]
  · by_cases h1 : (getAutocompletedCommand x.bindings x.bindingsFlags x.cmdSize
        (readCStr (x.cmdBuffer.set x.cmdSize chNul) 0)).1.candidateCount = 1
    · obtain ⟨a1, a2, a3, a4, a5⟩ := acWrite_proj
        ((getAutocompletedCommand x.bindings x.bindingsFlags x.cmdSize
          (readCStr (x.cmdBuffer.set x.cmdSize chNul) 0)).1.firstCandidate.getD [])
        ((getAutocompletedCommand x.bindings x.bindingsFlags x.cmdSize
          (readCStr (x.cmdBuffer.set x.cmdSize chNul) 0)).1.autocompletedLen - x.cmdSize)
        x.cmdSize
        { x with cmdBuffer := x.cmdBuffer.set x.cmdSize chNul,
                 bindingsFlags := (getAutocompletedCommand x.bindings x.bindingsFlags x.cmdSize
                   (readCStr (x.cmdBuffer.set x.cmdSize chNul) 0)).2 }
      simp [onAutocompleteRequest, tabC, projC, hfst, h0, h1, a1, a2, a3, a4, a5, emitChar]
    · by_cases h2 : (getAutocompletedCommand x.bindings x.bindingsFlags x.cmdSize
          (readCStr (x.cmdBuffer.set x.cmdSize chNul) 0)).1.autocompletedLen = x.cmdSize
      · simp [onAutocompleteRequest, tabC, projC, hfst, h0, h1, h2,
          clearCurrentLine_cmdBuffer, clearCurrentLine_cmdSize, clearCurrentLine_lastChar,
          clearCurrentLine_escapeMode, clearCurrentLine_dispatched, clearCurrentLine_bindings,
          clearCurrentLine_bindingsFlags, clearCurrentLine_invitation,
          listCandidates_cmdBuffer, listCandidates_cmdSize, listCandidates_lastChar,
          listCandidates_escapeMode, listCandidates_dispatched, listCandidates_invitation,
          writeToOutput_cmdBuffer, writeToOutput_cmdSize, writeToOutput_lastChar,
          writeToOutput_escapeMode, writeToOutput_dispatched]
      · obtain ⟨a1, a2, a3, a4, a5⟩ := acWrite_proj
          ((getAutocompletedCommand x.bindings x.bindingsFlags x.cmdSize
            (readCStr (x.cmdBuffer.set x.cmdSize chNul) 0)).1.firstCandidate.getD [])
          ((getAutocompletedCommand x.bindings x.bindingsFlags x.cmdSize
            (readCStr (x.cmdBuffer.set x.cmdSize chNul) 0)).1.autocompletedLen - x.cmdSize)
          x.cmdSize
          { x with cmdBuffer := x.cmdBuffer.set x.cmdSize chNul,
                   bindingsFlags := (getAutocompletedCommand x.bindings x.bindingsFlags x.cmdSize
                     (readCStr (x.cmdBuffer.set x.cmdSize chNul) 0)).2 }
        simp [onAutocompleteRequest, tabC, projC, hfst, h0, h1, h2, a1, a2, a3, a4, a5]

theorem onControlInput_proj (c : Char) (x : CliCore) :
    projC (onControlInput c x) = ctrlC x.bindings x.onCommand c (projC x) := by
  by_cases hc1 : (x.lastChar = '\r' ∧ c = '\n') ∨ (x.lastChar = '\n' ∧ c = '\r')
  · simp [onControlInput, ctrlC, projC, hc1]
  · by_cases hc2 : c = '\r' ∨ c = '\n'
    · by_cases hc3 : 0 < x.cmdSize
      · obtain ⟨p1, p2, p3, p4, p5⟩ := parseCommand_proj (writeToOutput x lineBreak)
        simp [onControlInput, ctrlC, projC, hc1, hc2, hc3, p1, p2, p3, p4, p5,
          writeToOutput_cmdBuffer, writeToOutput_cmdSize, writeToOutput_lastChar,
          writeToOutput_escapeMode, writeToOutput_dispatched, writeToOutput_bindings,
          writeToOutput_onCommand, writeToOutput_invitation]
      · simp [onControlInput, ctrlC, projC, hc1, hc2, hc3,
          writeToOutput_cmdBuffer, writeToOutput_cmdSize, writeToOutput_lastChar,
          writeToOutput_escapeMode, writeToOutput_dispatched, writeToOutput_invitation]
    · by_cases hc4 : (c = chBs ∨ c = chDel) ∧ 0 < x.cmdSize
      · simp [onControlInput, ctrlC, projC, hc1, hc2, hc4, emitChar]
      · by_cases hc5 : c = '\t'
        · simpa [onControlInput, ctrlC, hc1, hc2, hc4, hc5]
            using onAutocompleteRequest_proj x
        · simp [onControlInput, ctrlC, projC, hc1, hc2, hc4, hc5]

theorem handleByte_proj (c : Char) (st : CliCore) :
    projC (handleByte c st) = stepC st.bindings st.cmdMaxSize st.onCommand c (projC st) := by
  by_cases h1 : st.escapeMode = true
  · by_cases h2 : 64 ≤ c.toNat ∧ c.toNat ≤ 126
    · simp [handleByte, stepC, onEscapedInput, projC, h1, h2, printLive_cmdBuffer,
        printLive_cmdSize, printLive_lastChar, printLive_escapeMode, printLive_dispatched]
    · simp [handleByte, stepC, onEscapedInput, projC, h1, h2, printLive_cmdBuffer,
        printLive_cmdSize, printLive_lastChar, printLive_escapeMode, printLive_dispatched]
  · by_cases h2 : st.lastChar = chEsc ∧ c = '['
    · simp [handleByte, stepC, projC, h1, h2, printLive_cmdBuffer,
        printLive_cmdSize, printLive_lastChar, printLive_escapeMode, printLive_dispatched]
    · by_cases h3 : isControlChar c
      · have h := onControlInput_proj c st
        have hb : (onControlInput c st).cmdBuffer =
            (ctrlC st.bindings st.onCommand c (projC st)).buf := congrArg CmdSt.buf h
        have hs : (onControlInput c st).cmdSize =
            (ctrlC st.bindings st.onCommand c (projC st)).sz := congrArg CmdSt.sz h
        have hl : (onControlInput c st).lastChar =
            (ctrlC st.bindings st.onCommand c (projC st)).lastC := congrArg CmdSt.lastC h
        have he : (onControlInput c st).escapeMode =
            (ctrlC st.bindings st.onCommand c (projC st)).esc := congrArg CmdSt.esc h
        have hv : (onControlInput c st).dispatched =
            (ctrlC st.bindings st.onCommand c (projC st)).ev := congrArg CmdSt.ev h
        simp [handleByte, stepC, projC, h1, h2, h3, hb, hs, hl, he, hv, printLive_cmdBuffer,
          printLive_cmdSize, printLive_lastChar, printLive_escapeMode, printLive_dispatched]
      · by_cases h4 : isDisplayableChar c
        · by_cases h5 : st.cmdMaxSize ≤ st.cmdSize + 2
          · simp [handleByte, stepC, onCharInput, projC, h1, h2, h3, h4, h5,
              printLive_cmdBuffer, printLive_cmdSize, printLive_lastChar,
              printLive_escapeMode, printLive_dispatched]
          · by_cases h6 : st.hasWriteChar = true
            · simp [handleByte, stepC, onCharInput, projC, emitChar, h1, h2, h3, h4, h5, h6,
                printLive_cmdBuffer, printLive_cmdSize, printLive_lastChar,
                printLive_escapeMode, printLive_dispatched]
            · simp [handleByte, stepC, onCharInput, projC, emitChar, h1, h2, h3, h4, h5, h6,
                printLive_cmdBuffer, printLive_cmdSize, printLive_lastChar,
                printLive_escapeMode, printLive_dispatched]
        · simp [handleByte, stepC, projC, h1, h2, h3, h4, printLive_cmdBuffer,
            printLive_cmdSize, printLive_lastChar, printLive_escapeMode, printLive_dispatched]

theorem processChars_proj (cs : List Char) : ∀ st : CliCore,
    projC (processChars cs st) = runC st.bindings st.cmdMaxSize st.onCommand cs (projC st) := by
  induction cs with
  | nil => intro st; rfl
  | cons c rest ih =>
      intro st
      obtain ⟨⟨f1, f2, f3, f4, f5, f6, f7, f8, f9⟩, _⟩ := ev_handleByte c st
      show projC (processChars rest (handleByte c st)) =
        runC st.bindings st.cmdMaxSize st.onCommand rest
          (stepC st.bindings st.cmdMaxSize st.onCommand c (projC st))
      rw [ih (handleByte c st), ← f1, ← f2, ← f5, handleByte_proj]

theorem projC_ev (x : CliCore) : (projC x).ev = x.dispatched := rfl

/-! ### C8: the built-in help binding is never shadowed -/

theorem addBinding_state (st : CliState) (b : CliBinding) :
    (embeddedCliAddBinding st b).1.rxBuffer = st.rxBuffer ∧
    (embeddedCliAddBinding st b).1.core.cmdBuffer = st.core.cmdBuffer ∧
    (embeddedCliAddBinding st b).1.core.cmdSize = st.core.cmdSize ∧
    (embeddedCliAddBinding st b).1.core.lastChar = st.core.lastChar ∧
    (embeddedCliAddBinding st b).1.core.escapeMode = st.core.escapeMode ∧
    (embeddedCliAddBinding st b).1.core.overflow = st.core.overflow ∧
    (embeddedCliAddBinding st b).1.core.dispatched = st.core.dispatched ∧
    (embeddedCliAddBinding st b).1.core.cmdMaxSize = st.core.cmdMaxSize ∧
    (embeddedCliAddBinding st b).1.core.onCommand = st.core.onCommand ∧
    (embeddedCliAddBinding st b).1.core.initComplete = st.core.initComplete ∧
    ∃ tail, (embeddedCliAddBinding st b).1.core.bindings = st.core.bindings ++ tail := by
  unfold embeddedCliAddBinding
  split
  · exact ⟨rfl, rfl, rfl, rfl, rfl, rfl, rfl, rfl, rfl, rfl, [], (List.append_nil _).symm⟩
  · exact ⟨rfl, rfl, rfl, rfl, rfl, rfl, rfl, rfl, rfl, rfl, [b], rfl⟩

theorem regsRun_facts : ∀ (regs : List CliBinding) (st : CliState),
    (regs.foldl (fun s b => (embeddedCliAddBinding s b).1) st).rxBuffer = st.rxBuffer ∧
    (regs.foldl (fun s b => (embeddedCliAddBinding s b).1) st).core.cmdBuffer =
      st.core.cmdBuffer ∧
    (regs.foldl (fun s b => (embeddedCliAddBinding s b).1) st).core.cmdSize = st.core.cmdSize ∧
    (regs.foldl (fun s b => (embeddedCliAddBinding s b).1) st).core.lastChar =
      st.core.lastChar ∧
    (regs.foldl (fun s b => (embeddedCliAddBinding s b).1) st).core.escapeMode =
      st.core.escapeMode ∧
    (regs.foldl (fun s b => (embeddedCliAddBinding s b).1) st).core.overflow =
      st.core.overflow ∧
    (regs.foldl (fun s b => (embeddedCliAddBinding s b).1) st).core.dispatched =
      st.core.dispatched ∧
    (regs.foldl (fun s b => (embeddedCliAddBinding s b).1) st).core.cmdMaxSize =
      st.core.cmdMaxSize ∧
    (regs.foldl (fun s b => (embeddedCliAddBinding s b).1) st).core.onCommand =
      st.core.onCommand ∧
    (regs.foldl (fun s b => (embeddedCliAddBinding s b).1) st).core.initComplete =
      st.core.initComplete ∧
    ∃ tail, (regs.foldl (fun s b => (embeddedCliAddBinding s b).1) st).core.bindings =
      st.core.bindings ++ tail := by
  intro regs
  induction regs with
  | nil =>
      intro st
      exact ⟨rfl, rfl, rfl, rfl, rfl, rfl, rfl, rfl, rfl, rfl, [],
        (List.append_nil _).symm⟩
  | cons b rest ih =>
      intro st
      obtain ⟨a0, a1, a2, a3, a4, a5, a6, a7, a8, a9, t1, hb1⟩ := addBinding_state st b
      obtain ⟨g0, g1, g2, g3, g4, g5, g6, g7, g8, g9, t2, hb2⟩ :=
        ih (embeddedCliAddBinding st b).1
      refine ⟨g0.trans a0, g1.trans a1, g2.trans a2, g3.trans a3, g4.trans a4,
        g5.trans a5, g6.trans a6, g7.trans a7, g8.trans a8, g9.trans a9, t1 ++ t2, ?_⟩
      show (rest.foldl (fun s b => (embeddedCliAddBinding s b).1)
          (embeddedCliAddBinding st b).1).core.bindings = st.core.bindings ++ (t1 ++ t2)
      rw [hb2, hb1, List.append_assoc]

set_option maxHeartbeats 1600000 in
/-- C8: After any sequence of binding registrations from a fresh default
CLI - including user registrations named exactly "help" - the built-in
help binding still occupies the first registry slot, and submitting the
line "help" always dispatches the built-in handler in slot 0 (the
registry scan is first-match-by-exact-name, so no later same-named
binding can shadow it). -/
theorem c8_help_never_shadowed (regs : List CliBinding) (onCmd : Bool) :
    (∃ rest, (regs.foldl (fun s b => (embeddedCliAddBinding s b).1)
        (defaultCliState onCmd)).core.bindings = helpBinding :: rest) ∧
    (runChunk (regs.foldl (fun s b => (embeddedCliAddBinding s b).1) (defaultCliState onCmd))
        ("help".toList ++ ['\r'])).core.dispatched =
      [CbEvent.invoke 0 ("help".toList) none] := by
  obtain ⟨g0, g1, g2, g3, g4, g5, g6, g7, g8, g9, tail, hbind⟩ :=
    regsRun_facts regs (defaultCliState onCmd)
  have hbase : (defaultCliState onCmd).core.bindings = [helpBinding] := rfl
  rw [hbase] at hbind
  have hbind2 : (regs.foldl (fun s b => (embeddedCliAddBinding s b).1)
      (defaultCliState onCmd)).core.bindings = helpBinding :: tail := by
    rw [hbind]
    rfl
  refine ⟨⟨tail, hbind2⟩, ?_⟩
  have hrxc : (defaultCliState onCmd).rxBuffer =
      { buf := List.replicate 64 chNul, front := 0, back := 0, size := 64 } := rfl
  have hwf : FifoWF (regs.foldl (fun s b => (embeddedCliAddBinding s b).1)
      (defaultCliState onCmd)).rxBuffer := by
    rw [g0, hrxc]
    decide
  have hempty : (regs.foldl (fun s b => (embeddedCliAddBinding s b).1)
      (defaultCliState onCmd)).rxBuffer.front =
      (regs.foldl (fun s b => (embeddedCliAddBinding s b).1)
        (defaultCliState onCmd)).rxBuffer.back := by
    rw [g0, hrxc]
  have hlen : ("help".toList ++ ['\r']).length <
      (regs.foldl (fun s b => (embeddedCliAddBinding s b).1)
        (defaultCliState onCmd)).rxBuffer.size := by
    rw [g0, hrxc]
    decide
  have hover : (regs.foldl (fun s b => (embeddedCliAddBinding s b).1)
      (defaultCliState onCmd)).core.overflow = false := by
    rw [g5]
    rfl
  obtain ⟨q1, _, _, _, _, _⟩ := runChunk_eq
    (regs.foldl (fun s b => (embeddedCliAddBinding s b).1) (defaultCliState onCmd))
    ("help".toList ++ ['\r']) hwf hempty hlen hover
  rw [q1]
  have hd := congrArg CmdSt.ev (processChars_proj ("help".toList ++ ['\r'])
    (initAdjust (regs.foldl (fun s b => (embeddedCliAddBinding s b).1)
      (defaultCliState onCmd)).core))
  obtain ⟨i1, i2, i3, i4, i5, i6, i7, i8, i9⟩ := initAdjust_proj
    (regs.foldl (fun s b => (embeddedCliAddBinding s b).1) (defaultCliState onCmd)).core
  have hM : (regs.foldl (fun s b => (embeddedCliAddBinding s b).1)
      (defaultCliState onCmd)).core.cmdMaxSize = 64 := by
    rw [g7]
    rfl
  have hproj : projC (initAdjust (regs.foldl (fun s b => (embeddedCliAddBinding s b).1)
      (defaultCliState onCmd)).core) =
      ⟨List.replicate 64 chNul, 0, chNul, false, []⟩ := by
    simp only [projC, i1, i2, i3, i4, i8, g1, g2, g3, g4, g6]
    rfl
  rw [← projC_ev, processChars_proj, hproj, i5, i6, i7, hbind2, hM]
  simp [runC, stepC, ctrlC, parseCommandC, parseScanC, parseScanLoop, findBinding,
    invokeEvC, helpEvC, helpBinding, readCStr, chNul, chEsc, chBs, chDel,
    isControlChar, isDisplayableChar, List.replicate, getD_set_ite]

/-- A user binding whose name is exactly "help" (used to try to shadow
the built-in one). -/
def helpClone : CliBinding :=
  { name := "help".toList, help := none, tokenizeArgs := false, context := 0,
    binding := some (CliHandler.extH 7) }

/-- Witness for C8: a user binding named exactly "help" still cannot
shadow the built-in one. -/
theorem c8_witness :
    (∃ rest, ([helpClone].foldl
        (fun s b => (embeddedCliAddBinding s b).1) (defaultCliState true)).core.bindings =
      helpBinding :: rest) ∧
    (runChunk ([helpClone].foldl
        (fun s b => (embeddedCliAddBinding s b).1) (defaultCliState true))
        ("help".toList ++ ['\r'])).core.dispatched =
      [CbEvent.invoke 0 ("help".toList) none] :=
  c8_help_never_shadowed [helpClone] true

/-! ### C5: overflow flag, recovery, and the state it leaves behind -/

theorem writeToOutput_overflow (st : CliCore) (s : List Char) :
    (writeToOutput st s).overflow = st.overflow := by rw [writeToOutput_eq]

theorem handleByte_overflow (c : Char) (x : CliCore) :
    (handleByte c x).overflow = x.overflow :=
  ((ev_handleByte c x).1.2.2.2.2.2.2.1).symm

theorem drainLoop_overflow : ∀ (n : Nat) (st : CliState),
    (drainLoop n st).core.overflow = st.core.overflow := by
  intro n
  induction n with
  | zero => intro st; rfl
  | succ n ih =>
      intro st
      simp only [drainLoop]
      split
      · rw [ih]
        exact handleByte_overflow _ _
      · rfl

theorem drainLoop_dispatched : ∀ (n : Nat) (st : CliState),
    ∃ d, (drainLoop n st).core.dispatched = st.core.dispatched ++ d := by
  intro n
  induction n with
  | zero => intro st; exact ⟨[], (List.append_nil _).symm⟩
  | succ n ih =>
      intro st
      simp only [drainLoop]
      split
      · obtain ⟨d1, hd1⟩ := ih
          { core := handleByte (fifoBufPop st.rxBuffer).1 st.core,
            rxBuffer := (fifoBufPop st.rxBuffer).2 }
        obtain ⟨_, d0, hd0⟩ := ev_handleByte (fifoBufPop st.rxBuffer).1 st.core
        refine ⟨d0 ++ d1, ?_⟩
        rw [hd1]
        show (handleByte (fifoBufPop st.rxBuffer).1 st.core).dispatched ++ d1 =
          st.core.dispatched ++ (d0 ++ d1)
        rw [hd0, List.append_assoc]
      · exact ⟨[], (List.append_nil _).symm⟩

theorem findBinding_noMatch : ∀ (bs : List CliBinding) (nm : List Char) (i : Nat),
    (∀ b ∈ bs, b.name ≠ nm) → findBinding bs nm i = FindRes.noMatch := by
  intro bs
  induction bs with
  | nil => intro nm i h; rfl
  | cons b rest ih =>
      intro nm i h
      unfold findBinding
      rw [if_neg (h b (List.mem_cons_self b rest))]
      exact ih nm (i + 1) (fun b2 hb2 => h b2 (List.mem_cons_of_mem b hb2))

theorem exists_cons15 (l : List Char) (h : 15 ≤ l.length) :
    ∃ a0 a1 a2 a3 a4 a5 a6 a7 a8 a9 a10 a11 a12 a13 a14 t,
      l = a0 :: a1 :: a2 :: a3 :: a4 :: a5 :: a6 :: a7 :: a8 :: a9 :: a10 :: a11 :: a12 ::
        a13 :: a14 :: t := by
  rcases l with _ | ⟨a0, l⟩
  · exact absurd h (by simp)
  rcases l with _ | ⟨a1, l⟩
  · exact absurd h (by simp)
  rcases l with _ | ⟨a2, l⟩
  · exact absurd h (by simp)
  rcases l with _ | ⟨a3, l⟩
  · exact absurd h (by simp)
  rcases l with _ | ⟨a4, l⟩
  · exact absurd h (by simp)
  rcases l with _ | ⟨a5, l⟩
  · exact absurd h (by simp)
  rcases l with _ | ⟨a6, l⟩
  · exact absurd h (by simp)
  rcases l with _ | ⟨a7, l⟩
  · exact absurd h (by simp)
  rcases l with _ | ⟨a8, l⟩
  · exact absurd h (by simp)
  rcases l with _ | ⟨a9, l⟩
  · exact absurd h (by simp)
  rcases l with _ | ⟨a10, l⟩
  · exact absurd h (by simp)
  rcases l with _ | ⟨a11, l⟩
  · exact absurd h (by simp)
  rcases l with _ | ⟨a12, l⟩
  · exact absurd h (by simp)
  rcases l with _ | ⟨a13, l⟩
  · exact absurd h (by simp)
  rcases l with _ | ⟨a14, l⟩
  · exact absurd h (by simp)
  exact ⟨a0, a1, a2, a3, a4, a5, a6, a7, a8, a9, a10, a11, a12, a13, a14, l, rfl⟩

set_option maxHeartbeats 1600000 in
/-- C5 (amended): a failed receive-buffer push sets the sticky overflow
flag and changes nothing else; a processing call that finds the flag set
ends with the in-flight line length reset to zero and the flag cleared;
processing only ever appends to the dispatched-command list, so
previously completed lines are unaffected; and, provided the discarded
traffic left the engine outside an ANSI escape sequence (the recovery
code does not reset escapeMode or lastChar), a subsequent well-formed
line "set led 1 150" still dispatches correctly. -/
theorem c5_overflow_recovery :
    (∀ (st : CliState) (c : Char), FifoWF st.rxBuffer →
        fifoBufAvailable st.rxBuffer = st.rxBuffer.size - 1 →
        embeddedCliReceiveChar st c =
          { core := { st.core with overflow := true }, rxBuffer := st.rxBuffer }) ∧
    (∀ st : CliState, st.core.overflow = true →
        (embeddedCliProcess st).core.cmdSize = 0 ∧
        (embeddedCliProcess st).core.overflow = false) ∧
    (∀ st : CliState, ∃ d,
        (embeddedCliProcess st).core.dispatched = st.core.dispatched ++ d) ∧
    (∀ (st : CliState) (bs : List CliBinding),
        st.core.cmdSize = 0 → st.core.escapeMode = false → st.core.overflow = false →
        st.core.initComplete = true → st.core.cmdMaxSize = 64 →
        st.core.cmdBuffer.length = 64 → st.core.bindings = bs →
        (∀ b ∈ bs, b.name ≠ "set".toList) → st.core.onCommand = true →
        FifoWF st.rxBuffer → st.rxBuffer.front = st.rxBuffer.back → st.rxBuffer.size = 64 →
        (runChunk st ("set led 1 150".toList ++ ['\r'])).core.dispatched =
          st.core.dispatched ++
            [CbEvent.defaultCmd ("set".toList) (some ("led 1 150".toList))]) := by
  refine ⟨?_, ?_, ?_, ?_⟩
  · intro st c hwf hfull
    have h := fifoBufPush_full st.rxBuffer hwf hfull c
    simp [embeddedCliReceiveChar, h]
  · intro st hov
    simp only [embeddedCliProcess]
    have hst0 : (if ¬ st.core.initComplete then
        { st with core := writeToOutput { st.core with initComplete := true } st.core.invitation }
        else st) = { core := initAdjust st.core, rxBuffer := st.rxBuffer } := by
      unfold initAdjust
      split
      · rfl
      · rfl
    rw [hst0]
    have hov1 : (drainLoop st.rxBuffer.size
        { core := initAdjust st.core, rxBuffer := st.rxBuffer }).core.overflow = true := by
      rw [drainLoop_overflow]
      show (initAdjust st.core).overflow = true
      rw [(initAdjust_proj st.core).2.2.2.2.2.2.2.2]
      exact hov
    rw [if_pos hov1]
    exact ⟨rfl, rfl⟩
  · intro st
    simp only [embeddedCliProcess]
    have hst0 : (if ¬ st.core.initComplete then
        { st with core := writeToOutput { st.core with initComplete := true } st.core.invitation }
        else st) = { core := initAdjust st.core, rxBuffer := st.rxBuffer } := by
      unfold initAdjust
      split
      · rfl
      · rfl
    rw [hst0]
    obtain ⟨d, hd⟩ := drainLoop_dispatched st.rxBuffer.size
      { core := initAdjust st.core, rxBuffer := st.rxBuffer }
    rw [(initAdjust_proj st.core).2.2.2.2.2.2.2.1] at hd
    refine ⟨d, ?_⟩
    split
    · exact hd
    · exact hd
  · intro st bs h0 hesc hov hinit hM hlen hbs hno honc hwf hempty hsz
    obtain ⟨q1, _, _, _, _, _⟩ := runChunk_eq st ("set led 1 150".toList ++ ['\r'])
      hwf hempty (by rw [hsz]; decide) hov
    rw [q1, initAdjust_id st.core hinit, ← projC_ev, processChars_proj, hbs, hM, honc]
    have hpr : projC st.core =
        ⟨st.core.cmdBuffer, 0, st.core.lastChar, false, st.core.dispatched⟩ := by
      simp [projC, h0, hesc]
    rw [hpr]
    obtain ⟨a0, a1, a2, a3, a4, a5, a6, a7, a8, a9, a10, a11, a12, a13, a14, t, hB⟩ :=
      exists_cons15 st.core.cmdBuffer (by omega)
    rw [hB]
    have hsl : "set".toList = ['s', 'e', 't'] := rfl
    have hno2 : ∀ b ∈ bs, b.name ≠ ['s', 'e', 't'] := by
      rw [← hsl]
      exact hno
    have hfind := findBinding_noMatch bs ['s', 'e', 't'] 0 hno2
    rw [show "set led 1 150".toList ++ ['\r'] =
      ['s', 'e', 't', ' ', 'l', 'e', 'd', ' ', '1', ' ', '1', '5', '0', '\r'] from rfl]
    rw [hsl, show "led 1 150".toList =
      ['l', 'e', 'd', ' ', '1', ' ', '1', '5', '0'] from rfl]
    simp [runC, stepC, ctrlC, parseCommandC, parseScanC, parseScanLoop, hfind,
      invokeEvC, helpEvC, readCStr, chNul, chEsc, chBs, chDel,
      isControlChar, isDisplayableChar, getD_set_ite]

set_option maxRecDepth 20000 in
/-- C5 counterexample to the unamended claim: a receive overflow in the
middle of an ANSI escape sequence sets the flag (first conjunct), yet
after the recovery cycle the next well-formed line "set led 1 150"
dispatches as command "et": the recovery resets neither escapeMode nor
lastChar, and the leaked escape state swallows the 's'. -/
theorem c5_counterexample :
    (receiveChars (defaultCliState true) ([chEsc, '['] ++ List.replicate 70 '1')).core.overflow
      = true ∧
    (runChunk (runChunk (defaultCliState true) ([chEsc, '['] ++ List.replicate 70 '1'))
        ("set led 1 150".toList ++ ['\r'])).core.dispatched =
      [CbEvent.defaultCmd ("et".toList) (some ("led 1 150".toList))] := by
  constructor
  · decide
  · decide

/-- A ring buffer at full occupancy (capacity 4, one slot kept empty). -/
def c5fullSt : CliState :=
  { core := (defaultCliState true).core,
    rxBuffer := { buf := ['a', 'b', 'c', 'd'], front := 0, back := 3, size := 4 } }

/-- A default engine state with the sticky overflow flag set. -/
def c5ovSt : CliState :=
  { core := { (defaultCliState true).core with overflow := true },
    rxBuffer := (defaultCliState true).rxBuffer }

/-- A default engine state after its first processing call (invitation
already printed). -/
def c5postSt : CliState :=
  { core := { (defaultCliState true).core with initComplete := true },
    rxBuffer := (defaultCliState true).rxBuffer }

/-- Witness for C5: each conjunct applied at a concrete state. -/
theorem c5_witness :
    (embeddedCliReceiveChar c5fullSt 'q' =
      { core := { c5fullSt.core with overflow := true }, rxBuffer := c5fullSt.rxBuffer }) ∧
    ((embeddedCliProcess c5ovSt).core.cmdSize = 0 ∧
      (embeddedCliProcess c5ovSt).core.overflow = false) ∧
    (∃ d, (embeddedCliProcess (defaultCliState true)).core.dispatched =
      (defaultCliState true).core.dispatched ++ d) ∧
    (runChunk c5postSt ("set led 1 150".toList ++ ['\r'])).core.dispatched =
      c5postSt.core.dispatched ++
        [CbEvent.defaultCmd ("set".toList) (some ("led 1 150".toList))] := by
  refine ⟨c5_overflow_recovery.1 c5fullSt 'q' (by decide) (by decide),
    c5_overflow_recovery.2.1 c5ovSt (by decide),
    c5_overflow_recovery.2.2.1 (defaultCliState true),
    c5_overflow_recovery.2.2.2 c5postSt [helpBinding] (by decide) (by decide) (by decide)
      (by decide) (by decide) (by decide) (by decide) (by decide) (by decide) (by decide)
      (by decide) (by decide)⟩

/-! ### C6: the two reserved trailing bytes of the command buffer -/

/-- The per-core invariant behind the reserve: the in-progress line
leaves two trailing bytes free, and every registered binding name leaves
room for itself, a separator and the double terminator. -/
def CoreInv (x : CliCore) : Prop :=
  x.cmdSize + 2 ≤ x.cmdMaxSize ∧ ∀ b ∈ x.bindings, b.name.length + 3 ≤ x.cmdMaxSize

/-- Engine states reachable through the public API, with a command
buffer of at least 7 bytes and every registered name leaving room for
the reserve. -/
inductive ReachableSafe : CliState → Prop where
  | init (rxSize cmdBufSize maxUser : Nat) (onCmd hasW : Bool) (h7 : 7 ≤ cmdBufSize) :
      ReachableSafe (embeddedCliNewState rxSize cmdBufSize maxUser onCmd hasW)
  | addB {st : CliState} (b : CliBinding) (hr : ReachableSafe st)
      (hn : b.name.length + 3 ≤ st.core.cmdMaxSize) :
      ReachableSafe (embeddedCliAddBinding st b).1
  | recv {st : CliState} (c : Char) (hr : ReachableSafe st) :
      ReachableSafe (embeddedCliReceiveChar st c)
  | proc {st : CliState} (hr : ReachableSafe st) :
      ReachableSafe (embeddedCliProcess st)

theorem acDiverge_le (first cand : List Char) : ∀ (fuel j acl : Nat),
    acDiverge first cand fuel j acl ≤ acl := by
  intro fuel
  induction fuel with
  | zero => intro j acl; exact Nat.le_refl acl
  | succ fuel ih =>
      intro j acl
      simp only [acDiverge]
      split
      · split
        · omega
        · exact ih (j + 1) acl
      · exact Nat.le_refl acl

theorem acFold_bound (cmdSize : Nat) (pfx : List Char) (M : Nat) :
    ∀ (bs : List CliBinding) (cmd : AutocompletedCommand) (fl : List Bool),
    (∀ b ∈ bs, b.name.length + 3 ≤ M) →
    (cmd.candidateCount ≠ 0 → cmd.autocompletedLen + 3 ≤ M) →
    (acFold cmdSize pfx bs cmd fl).1.candidateCount ≠ 0 →
    (acFold cmdSize pfx bs cmd fl).1.autocompletedLen + 3 ≤ M := by
  intro bs
  induction bs with
  | nil => intro cmd fl hb hc; exact hc
  | cons b rest ih =>
      intro cmd fl hb hc
      by_cases hm : b.name.length < pfx.length ∨ ¬ b.name.take pfx.length = pfx
      · simp only [acFold, if_pos hm]
        exact ih cmd _ (fun b2 h2 => hb b2 (List.mem_cons_of_mem b h2)) hc
      · simp only [acFold, if_neg hm]
        by_cases h01 : cmd.candidateCount = 0 ∨ b.name.length < cmd.autocompletedLen
        · simp only [if_pos h01]
          by_cases hcnt : cmd.candidateCount + 1 = 1
          · simp only [if_pos hcnt]
            refine ih _ _ (fun b2 h2 => hb b2 (List.mem_cons_of_mem b h2)) ?_
            intro _
            exact hb b (List.mem_cons_self b rest)
          · simp only [if_neg hcnt]
            refine ih _ _ (fun b2 h2 => hb b2 (List.mem_cons_of_mem b h2)) ?_
            intro _
            show acDiverge (cmd.firstCandidate.getD []) b.name b.name.length cmdSize
              b.name.length + 3 ≤ M
            have hd := acDiverge_le (cmd.firstCandidate.getD []) b.name b.name.length cmdSize
              b.name.length
            have hbb := hb b (List.mem_cons_self b rest)
            omega
        · simp only [if_neg h01]
          have hcnt0 : cmd.candidateCount ≠ 0 := fun h0 => h01 (Or.inl h0)
          have hacl := hc hcnt0
          by_cases hcnt : cmd.candidateCount + 1 = 1
          · exact absurd (by omega : cmd.candidateCount = 0) hcnt0
          · simp only [if_neg hcnt]
            refine ih _ _ (fun b2 h2 => hb b2 (List.mem_cons_of_mem b h2)) ?_
            intro _
            show acDiverge (cmd.firstCandidate.getD []) b.name cmd.autocompletedLen cmdSize
              cmd.autocompletedLen + 3 ≤ M
            have hd := acDiverge_le (cmd.firstCandidate.getD []) b.name cmd.autocompletedLen
              cmdSize cmd.autocompletedLen
            omega

theorem getAC_bound (bs : List CliBinding) (fl : List Bool) (sz : Nat) (p : List Char)
    (M : Nat) (hb : ∀ b ∈ bs, b.name.length + 3 ≤ M) :
    (getAutocompletedCommand bs fl sz p).1.candidateCount ≠ 0 →
    (getAutocompletedCommand bs fl sz p).1.autocompletedLen + 3 ≤ M := by
  unfold getAutocompletedCommand
  split
  · intro h
    exact absurd rfl h
  · exact acFold_bound sz p M bs ⟨none, 0, 0⟩ [] hb (fun h0 => absurd rfl h0)

theorem tabC_sz (bs : List CliBinding) (M : Nat) (s : CmdSt) (hsz : s.sz + 2 ≤ M)
    (hb : ∀ b ∈ bs, b.name.length + 3 ≤ M) : (tabC bs s).sz + 2 ≤ M := by
  by_cases h0 : (getAutocompletedCommand bs [] s.sz
      (readCStr (s.buf.set s.sz chNul) 0)).1.candidateCount = 0
  · simp only [tabC, if_pos h0]
    exact hsz
  · by_cases h1 : (getAutocompletedCommand bs [] s.sz
        (readCStr (s.buf.set s.sz chNul) 0)).1.candidateCount = 1
    · simp only [tabC, if_neg h0, if_pos h1]
      have hbd := getAC_bound bs [] s.sz (readCStr (s.buf.set s.sz chNul) 0) M hb h0
      show (getAutocompletedCommand bs [] s.sz
        (readCStr (s.buf.set s.sz chNul) 0)).1.autocompletedLen + 1 + 2 ≤ M
      omega
    · by_cases h2 : (getAutocompletedCommand bs [] s.sz
          (readCStr (s.buf.set s.sz chNul) 0)).1.autocompletedLen = s.sz
      · simp only [tabC, if_neg h0, if_neg h1, if_pos h2]
        exact hsz
      · simp only [tabC, if_neg h0, if_neg h1, if_neg h2]
        have hbd := getAC_bound bs [] s.sz (readCStr (s.buf.set s.sz chNul) 0) M hb h0
        show (getAutocompletedCommand bs [] s.sz
          (readCStr (s.buf.set s.sz chNul) 0)).1.autocompletedLen + 2 ≤ M
        omega

theorem ctrlC_sz (bs : List CliBinding) (M : Nat) (oc : Bool) (c : Char) (s : CmdSt)
    (hsz : s.sz + 2 ≤ M) (hb : ∀ b ∈ bs, b.name.length + 3 ≤ M) :
    (ctrlC bs oc c s).sz + 2 ≤ M := by
  simp only [ctrlC]
  split
  · exact hsz
  · split
    · split
      · show 0 + 2 ≤ M
        omega
      · show 0 + 2 ≤ M
        omega
    · split
      · show s.sz - 1 + 2 ≤ M
        omega
      · split
        · exact tabC_sz bs M s hsz hb
        · exact hsz

theorem stepC_sz (bs : List CliBinding) (M : Nat) (oc : Bool) (c : Char) (s : CmdSt)
    (hsz : s.sz + 2 ≤ M) (hb : ∀ b ∈ bs, b.name.length + 3 ≤ M) :
    (stepC bs M oc c s).sz + 2 ≤ M := by
  simp only [stepC]
  split
  · split
    · exact hsz
    · exact hsz
  · split
    · exact hsz
    · split
      · show (ctrlC bs oc c s).sz + 2 ≤ M
        exact ctrlC_sz bs M oc c s hsz hb
      · split
        · split
          · exact hsz
          · show s.sz + 1 + 2 ≤ M
            rename_i h
            omega
        · exact hsz

theorem handleByte_coreInv (c : Char) (x : CliCore) (h : CoreInv x) :
    CoreInv (handleByte c x) := by
  obtain ⟨⟨f1, f2, _⟩, _⟩ := ev_handleByte c x
  refine ⟨?_, ?_⟩
  · rw [← f1]
    have hp : (handleByte c x).cmdSize =
        (stepC x.bindings x.cmdMaxSize x.onCommand c (projC x)).sz :=
      congrArg CmdSt.sz (handleByte_proj c x)
    rw [hp]
    exact stepC_sz x.bindings x.cmdMaxSize x.onCommand c (projC x) h.1 h.2
  · rw [← f1, ← f2]
    exact h.2

theorem drainLoop_coreInv : ∀ (n : Nat) (st : CliState),
    CoreInv st.core → CoreInv (drainLoop n st).core := by
  intro n
  induction n with
  | zero => intro st h; exact h
  | succ n ih =>
      intro st h
      simp only [drainLoop]
      split
      · exact ih _ (handleByte_coreInv _ _ h)
      · exact h

theorem initAdjust_coreInv (x : CliCore) (h : CoreInv x) : CoreInv (initAdjust x) := by
  obtain ⟨i1, i2, i3, i4, i5, i6, i7, i8, i9⟩ := initAdjust_proj x
  refine ⟨?_, ?_⟩
  · rw [i2, i6]
    exact h.1
  · rw [i5, i6]
    exact h.2

theorem process_coreInv (st : CliState) (h : CoreInv st.core) :
    CoreInv (embeddedCliProcess st).core := by
  simp only [embeddedCliProcess]
  have hst0 : (if ¬ st.core.initComplete then
      { st with core := writeToOutput { st.core with initComplete := true } st.core.invitation }
      else st) = { core := initAdjust st.core, rxBuffer := st.rxBuffer } := by
    unfold initAdjust
    split
    · rfl
    · rfl
  rw [hst0]
  have h1 := drainLoop_coreInv st.rxBuffer.size
    { core := initAdjust st.core, rxBuffer := st.rxBuffer } (initAdjust_coreInv st.core h)
  split
  · refine ⟨?_, ?_⟩
    · show 0 + 2 ≤ (drainLoop st.rxBuffer.size
        { core := initAdjust st.core, rxBuffer := st.rxBuffer }).core.cmdMaxSize
      have := h1.1
      omega
    · exact h1.2
  · exact h1

theorem receiveChar_coreInv (st : CliState) (c : Char) (h : CoreInv st.core) :
    CoreInv (embeddedCliReceiveChar st c).core := by
  simp only [embeddedCliReceiveChar]
  split
  · exact h
  · exact ⟨h.1, h.2⟩

theorem addBinding_coreInv (st : CliState) (b : CliBinding)
    (hn : b.name.length + 3 ≤ st.core.cmdMaxSize) (h : CoreInv st.core) :
    CoreInv (embeddedCliAddBinding st b).1.core := by
  unfold embeddedCliAddBinding
  split
  · exact h
  · refine ⟨h.1, fun b2 hb2 => ?_⟩
    rcases List.mem_append.mp hb2 with h2 | h2
    · exact h.2 b2 h2
    · rw [List.mem_singleton.mp h2]
      exact hn

theorem newState_coreInv (rxSize cmdBufSize maxUser : Nat) (onCmd hasW : Bool)
    (h7 : 7 ≤ cmdBufSize) :
    CoreInv (embeddedCliNewState rxSize cmdBufSize maxUser onCmd hasW).core := by
  have hsz : (embeddedCliNewState rxSize cmdBufSize maxUser onCmd hasW).core.cmdSize = 0 := rfl
  have hM : (embeddedCliNewState rxSize cmdBufSize maxUser onCmd hasW).core.cmdMaxSize =
      cmdBufSize := rfl
  have hbind : (embeddedCliNewState rxSize cmdBufSize maxUser onCmd hasW).core.bindings =
      [helpBinding] := rfl
  refine ⟨?_, ?_⟩
  · rw [hsz, hM]
    omega
  · rw [hbind, hM]
    intro b hb
    rw [List.mem_singleton.mp hb]
    have : helpBinding.name.length = 4 := by decide
    omega

set_option maxRecDepth 20000 in
/-- C6 (amended): in every engine state reachable through construction
(command buffer of at least 7 bytes), byte ingestion, processing calls
and registrations whose binding names leave room for the name, a
separator and the double terminator (length ≤ cmdMaxSize − 3), the
current command length satisfies cmdSize ≤ cmdMaxSize − 2, so the two
trailing bytes stay free for the tokenizer's double-terminator
sentinel.  The name-length proviso is necessary: TAB completion commits
a candidate name without any bounds check. -/
theorem c6_cmdSize_reserve (st : CliState) (hr : ReachableSafe st) :
    st.core.cmdSize ≤ st.core.cmdMaxSize - 2 := by
  have h : CoreInv st.core := by
    induction hr with
    | init rxSize cmdBufSize maxUser onCmd hasW h7 =>
        exact newState_coreInv rxSize cmdBufSize maxUser onCmd hasW h7
    | addB b hr hn ih => exact addBinding_coreInv _ b hn ih
    | recv c hr ih => exact receiveChar_coreInv _ c ih
    | proc hr ih => exact process_coreInv _ ih
  have h1 := h.1
  omega

/-- A binding whose 62-byte name leaves no room for the reserve in a
64-byte command buffer. -/
def c6bad : CliBinding :=
  { name := List.replicate 62 'x', help := none, tokenizeArgs := false, context := 0,
    binding := some (CliHandler.extH 1) }

set_option maxRecDepth 20000 in
/-- C6 counterexample to the unamended claim: registering a binding with
a 62-character name in the default CLI (cmdMaxSize 64) and pressing
x TAB commits the completion to cmdSize 63 > 64 − 2: the reserve is
broken, so the claim does not hold for every reachable state without
the name-length proviso. -/
theorem c6_counterexample :
    (runChunk (embeddedCliAddBinding (defaultCliState true) c6bad).1
        ['x', '\t']).core.cmdSize = 63 ∧
    (runChunk (embeddedCliAddBinding (defaultCliState true) c6bad).1
        ['x', '\t']).core.cmdMaxSize = 64 := by
  constructor
  · decide
  · decide

/-- Witness for C6: the bound applied to a concretely-built reachable
state (construction, one received byte, one processing call). -/
theorem c6_witness :
    (embeddedCliProcess (embeddedCliReceiveChar
        (embeddedCliNewState 64 64 8 true true) 'x')).core.cmdSize ≤
      (embeddedCliProcess (embeddedCliReceiveChar
        (embeddedCliNewState 64 64 8 true true) 'x')).core.cmdMaxSize - 2 :=
  c6_cmdSize_reserve _
    (ReachableSafe.proc (ReachableSafe.recv 'x'
      (ReachableSafe.init 64 64 8 true true (by decide))))

end EmbeddedCli
